import Mathlib

/-!
Verification of the core game logic of ChasingGameCPP (src/main.cpp): the maze
model with its tunnel-wrap adjacency, the BFS cat pursuit, randomized level
population, the difficulty curve, the power-up slow effect, and the game state
machine with its epoch-stamped timer callbacks.

Every definition below is a shallow embedding of the corresponding C++
function.  C ints are modelled as unbounded integers (no quantity in this
program approaches 2^31, and the claims do not concern overflow); the float
formula for the cat delay is modelled exactly over the rationals (with the
real-number square root version proved to agree); rand() is modelled as an
explicit stream of naturals; the GLUT timer queue is modelled by returning
the scheduled callback explicitly next to the new state.
-/

namespace ChasingGame

/-- Grid dimensions and the tunnel row, from main.cpp lines 37-42. -/
def ROWS : ℤ := 23

/-- Number of columns of the maze grid. -/
def COLS : ℤ := 23

/-- The y-index of the horizontal tunnel row. -/
def TUNNEL_ROW_INDEX : ℤ := 11

/-- Tile value of a wall cell. -/
def TILE_WALL : ℕ := 1

/-- Tile value of a path cell. -/
def TILE_PATH : ℕ := 0

/-- Tile value 3, unused by the movement logic. -/
def TILE_BLOCKED : ℕ := 3

/-- Tile value tagging the slow power-up. -/
def TILE_SLOW_POWERUP : ℕ := 4

/-- Player start column. -/
def PLAYER_START_X : ℤ := 1

/-- Player start row. -/
def PLAYER_START_Y : ℤ := 1

/-- Cat start column. -/
def CAT_START_X : ℤ := 11

/-- Cat start row. -/
def CAT_START_Y : ℤ := 11

/-- Number of defined levels. -/
def MAX_LEVELS : ℤ := 3

/-- Target number of cheese items per level. -/
def NUM_CHEESE_TO_PLACE : ℕ := 12

/-- Target number of power-ups per level. -/
def NUM_POWERUPS_PER_LEVEL : ℕ := 1

/-- Duration of the cat-slow effect in milliseconds. -/
def CAT_SLOW_DURATION_MS : ℤ := 5000

/-- Initial cat move delay in milliseconds. -/
def INITIAL_CAT_DELAY_MS : ℤ := 350

/-- Minimal cat move delay in milliseconds. -/
def MIN_CAT_DELAY_MS : ℤ := 150

/-- A grid position: (column, row), as C ints. -/
abbrev Pos := ℤ × ℤ

/-- A maze grid: the tile value at row y, column x (maze[y][x] in the source).
Out-of-bounds reads never occur in the embedded logic (every access is behind
the same bounds check the source performs). -/
abbrev Maze := ℤ → ℤ → ℕ

/-- The tunnel-wrap resolution applied to a candidate position, as written
identically in moveCat (main.cpp lines 625-628) and processPlayerMove
(lines 792-795): on the tunnel row a column below 0 resolves to COLS-1 and a
column at or beyond COLS resolves to 0; no other row wraps. -/
def wrapTunnel (nx ny : ℤ) : Pos :=
  if ny = TUNNEL_ROW_INDEX then
    (if nx < 0 then COLS - 1 else if COLS ≤ nx then 0 else nx, ny)
  else (nx, ny)

/-- The validity test a resolved candidate must pass in both moveCat (line
630) and processPlayerMove (line 798): in bounds and on a path tile. -/
def isPathAt (m : Maze) (p : Pos) : Prop :=
  0 ≤ p.1 ∧ p.1 < COLS ∧ 0 ≤ p.2 ∧ p.2 < ROWS ∧ m p.2 p.1 = TILE_PATH

instance (m : Maze) : DecidablePred (isPathAt m) := fun p => by
  unfold isPathAt; infer_instance

/-- The four direction offsets in the cat BFS expansion order of main.cpp
lines 602-603: up, down, left, right. -/
def dirs : List (ℤ × ℤ) := [(0, -1), (0, 1), (-1, 0), (1, 0)]

/-- The four wrap-resolved candidate positions around p, in expansion order. -/
def candidates (p : Pos) : List Pos :=
  dirs.map (fun d => wrapTunnel (p.1 + d.1) (p.2 + d.2))

/-- The valid neighbors of p: wrap-resolved candidates on path tiles.  This is
the adjacency relation both the cat BFS and the player move validation use. -/
def nbrs (m : Maze) (p : Pos) : List Pos :=
  (candidates p).filter (fun q => decide (isPathAt m q))

/-- There is a walk of length exactly n from a to b along nbrs. -/
def reachB (m : Maze) : ℕ → Pos → Pos → Bool
  | 0, a, b => a == b
  | n + 1, a, b => (nbrs m a).any (fun c => reachB m n c b)

/-- b is reachable from a along the maze adjacency. -/
def Reachable (m : Maze) (a b : Pos) : Prop := ∃ n, reachB m n a b = true

/-- The graph distance from a to b: the least walk length (0 if unreachable).
Spec-side notion only; the program never computes it. -/
noncomputable def distN (m : Maze) (a b : Pos) : ℕ :=
  letI : Decidable (Reachable m a b) := Classical.propDecidable _
  if h : Reachable m a b then Nat.find h else 0

theorem reachB_zero_iff {m : Maze} {a b : Pos} : reachB m 0 a b = true ↔ a = b := by
  simp [reachB]

theorem reachB_succ_iff {m : Maze} {n : ℕ} {a b : Pos} :
    reachB m (n + 1) a b = true ↔ ∃ c ∈ nbrs m a, reachB m n c b = true := by
  simp [reachB]

theorem reachB_self (m : Maze) (a : Pos) : reachB m 0 a a = true :=
  reachB_zero_iff.mpr rfl

theorem reachB_snoc {m : Maze} {n : ℕ} {a b c : Pos}
    (h : reachB m n a b = true) (hc : c ∈ nbrs m b) : reachB m (n + 1) a c = true := by
  induction n generalizing a with
  | zero =>
      rw [reachB_zero_iff] at h
      subst h
      exact reachB_succ_iff.mpr ⟨c, hc, reachB_self m c⟩
  | succ k ih =>
      obtain ⟨d, hd, hdb⟩ := reachB_succ_iff.mp h
      exact reachB_succ_iff.mpr ⟨d, hd, ih hdb⟩

theorem reachable_of_reachB {m : Maze} {n : ℕ} {a b : Pos}
    (h : reachB m n a b = true) : Reachable m a b := ⟨n, h⟩

theorem distN_le {m : Maze} {n : ℕ} {a b : Pos}
    (h : reachB m n a b = true) : distN m a b ≤ n := by
  rw [distN, dif_pos ⟨n, h⟩]
  exact Nat.find_le h

theorem reachB_distN {m : Maze} {a b : Pos} (h : Reachable m a b) :
    reachB m (distN m a b) a b = true := by
  rw [distN, dif_pos h]
  exact Nat.find_spec h

theorem distN_lt_of_lt {m : Maze} {a b : Pos} {k : ℕ} (h : Reachable m a b)
    (hk : k < distN m a b) : reachB m k a b = false := by
  rw [distN, dif_pos h] at hk
  exact Bool.eq_false_iff.mpr (Nat.find_min h hk)

theorem distN_self (m : Maze) (a : Pos) : distN m a a = 0 :=
  Nat.le_zero.mp (distN_le (reachB_self m a))

theorem distN_eq_zero_iff {m : Maze} {a b : Pos} (h : Reachable m a b) :
    distN m a b = 0 ↔ a = b := by
  constructor
  · intro h0
    have := reachB_distN h
    rw [h0, reachB_zero_iff] at this
    exact this
  · rintro rfl
    exact distN_self m a

theorem reachable_self (m : Maze) (a : Pos) : Reachable m a a :=
  ⟨0, reachB_self m a⟩

theorem reachable_nbr {m : Maze} {a b : Pos} (hb : b ∈ nbrs m a) : Reachable m a b :=
  ⟨1, reachB_snoc (reachB_self m a) hb⟩

/-- Any neighbor is a valid path tile, by construction of the filter. -/
theorem isPathAt_of_mem_nbrs {m : Maze} {a b : Pos} (hb : b ∈ nbrs m a) :
    isPathAt m b := by
  have := List.of_mem_filter hb
  exact of_decide_eq_true this

/-- Stepping to a neighbor changes the distance to a fixed target by at most
one downward is false in general, but the triangle inequality holds: going
through a neighbor costs at most one more step. -/
theorem distN_le_nbr {m : Maze} {a b c : Pos} (hb : b ∈ nbrs m a)
    (h : Reachable m b c) : distN m a c ≤ distN m b c + 1 := by
  have hw := reachB_distN h
  have : reachB m (distN m b c + 1) a c = true := by
    exact reachB_succ_iff.mpr ⟨b, hb, hw⟩
  exact distN_le this

/-- Maze layout1 of initMaze, transcribed verbatim from main.cpp lines 143-167. -/
def layout1 : List (List ℕ) :=
  [[1, 1, 1, 1, 1, 1, 1, 1, 1, 1, 1, 1, 1, 1, 1, 1, 1, 1, 1, 1, 1, 1, 1],
   [1, 0, 0, 0, 1, 0, 0, 0, 0, 0, 0, 0, 0, 0, 0, 0, 0, 0, 1, 0, 0, 0, 1],
   [1, 0, 1, 0, 1, 0, 1, 1, 1, 1, 1, 0, 1, 1, 1, 1, 1, 0, 1, 0, 1, 0, 1],
   [1, 0, 0, 0, 0, 0, 0, 0, 1, 0, 0, 0, 0, 0, 1, 0, 0, 0, 0, 0, 0, 0, 1],
   [1, 1, 1, 0, 1, 0, 1, 0, 1, 0, 1, 1, 1, 0, 1, 0, 1, 0, 1, 0, 1, 1, 1],
   [1, 0, 0, 0, 1, 0, 1, 0, 1, 0, 1, 3, 1, 0, 1, 0, 1, 0, 1, 0, 0, 0, 1],
   [1, 0, 1, 0, 1, 0, 1, 0, 1, 0, 1, 1, 1, 0, 1, 0, 1, 0, 1, 0, 1, 0, 1],
   [1, 0, 0, 0, 1, 0, 1, 0, 0, 0, 0, 0, 0, 0, 0, 0, 1, 0, 1, 0, 0, 0, 1],
   [1, 1, 1, 1, 1, 0, 1, 0, 1, 1, 1, 1, 1, 1, 1, 0, 1, 0, 1, 1, 1, 1, 1],
   [1, 0, 0, 0, 0, 0, 1, 0, 0, 0, 0, 0, 0, 0, 0, 0, 1, 0, 0, 0, 0, 0, 1],
   [1, 0, 1, 1, 1, 1, 1, 0, 1, 1, 1, 0, 1, 1, 1, 0, 1, 1, 1, 1, 1, 0, 1],
   [0, 0, 0, 0, 0, 0, 0, 0, 1, 0, 0, 0, 0, 0, 1, 0, 0, 0, 0, 0, 0, 0, 0],
   [1, 0, 1, 1, 1, 1, 1, 0, 1, 1, 1, 1, 1, 1, 1, 0, 1, 1, 1, 1, 1, 0, 1],
   [1, 0, 0, 0, 0, 0, 1, 0, 0, 0, 0, 0, 0, 0, 0, 0, 1, 0, 0, 0, 0, 0, 1],
   [1, 1, 1, 1, 1, 0, 1, 0, 1, 1, 1, 1, 1, 1, 1, 0, 1, 0, 1, 1, 1, 1, 1],
   [1, 0, 0, 0, 1, 0, 1, 0, 0, 0, 0, 0, 0, 0, 0, 0, 1, 0, 1, 0, 0, 0, 1],
   [1, 0, 1, 0, 1, 0, 1, 0, 1, 0, 1, 1, 1, 0, 1, 0, 1, 0, 1, 0, 1, 0, 1],
   [1, 0, 0, 0, 1, 0, 1, 0, 1, 0, 1, 3, 1, 0, 1, 0, 1, 0, 1, 0, 0, 0, 1],
   [1, 1, 1, 0, 1, 0, 1, 0, 1, 0, 1, 1, 1, 0, 1, 0, 1, 0, 1, 0, 1, 1, 1],
   [1, 0, 0, 0, 0, 0, 0, 0, 1, 0, 0, 0, 0, 0, 1, 0, 0, 0, 0, 0, 0, 0, 1],
   [1, 0, 1, 0, 1, 0, 1, 1, 1, 1, 1, 0, 1, 1, 1, 1, 1, 0, 1, 0, 1, 0, 1],
   [1, 0, 0, 0, 1, 0, 0, 0, 0, 0, 0, 0, 0, 0, 0, 0, 0, 0, 1, 0, 0, 0, 1],
   [1, 1, 1, 1, 1, 1, 1, 1, 1, 1, 1, 1, 1, 1, 1, 1, 1, 1, 1, 1, 1, 1, 1]]

/-- Maze layout2 of initMaze, transcribed verbatim from main.cpp lines 168-192. -/
def layout2 : List (List ℕ) :=
  [[1, 1, 1, 1, 1, 1, 1, 1, 1, 1, 1, 1, 1, 1, 1, 1, 1, 1, 1, 1, 1, 1, 1],
   [1, 0, 0, 0, 0, 0, 0, 0, 0, 0, 0, 1, 0, 0, 0, 0, 0, 0, 0, 0, 0, 0, 1],
   [1, 0, 1, 1, 1, 0, 1, 1, 1, 1, 0, 1, 0, 1, 1, 1, 1, 1, 0, 1, 1, 0, 1],
   [1, 0, 0, 0, 1, 0, 0, 0, 0, 0, 0, 0, 0, 0, 0, 0, 0, 1, 0, 1, 0, 0, 1],
   [1, 1, 1, 0, 1, 1, 1, 0, 1, 1, 1, 1, 1, 1, 1, 1, 0, 1, 0, 1, 1, 0, 1],
   [1, 0, 0, 0, 0, 0, 1, 0, 0, 0, 0, 0, 0, 0, 0, 1, 0, 0, 0, 0, 0, 0, 1],
   [1, 0, 1, 1, 1, 0, 1, 1, 1, 1, 0, 1, 0, 1, 0, 1, 1, 1, 1, 1, 1, 0, 1],
   [1, 0, 1, 0, 0, 0, 0, 0, 0, 1, 0, 1, 0, 1, 0, 0, 0, 0, 0, 0, 1, 0, 1],
   [1, 0, 1, 0, 1, 1, 1, 1, 0, 1, 0, 1, 0, 1, 1, 1, 1, 1, 1, 0, 1, 0, 1],
   [1, 0, 0, 0, 0, 0, 0, 1, 0, 0, 0, 0, 0, 1, 0, 0, 0, 0, 1, 0, 0, 0, 1],
   [1, 1, 1, 1, 1, 1, 0, 1, 1, 1, 1, 0, 1, 1, 1, 0, 1, 0, 1, 1, 1, 1, 1],
   [0, 0, 0, 0, 0, 0, 0, 0, 0, 0, 0, 0, 0, 0, 0, 0, 0, 0, 0, 0, 0, 0, 0],
   [1, 1, 1, 1, 1, 1, 0, 1, 1, 1, 1, 0, 1, 1, 1, 0, 1, 0, 1, 1, 1, 1, 1],
   [1, 0, 0, 0, 0, 0, 0, 1, 0, 0, 0, 0, 0, 1, 0, 0, 0, 0, 1, 0, 0, 0, 1],
   [1, 0, 1, 0, 1, 1, 1, 1, 0, 1, 0, 1, 0, 1, 1, 1, 1, 1, 1, 0, 1, 0, 1],
   [1, 0, 1, 0, 0, 0, 0, 0, 0, 1, 0, 1, 0, 1, 0, 0, 0, 0, 0, 0, 1, 0, 1],
   [1, 0, 1, 1, 1, 0, 1, 1, 1, 1, 0, 1, 0, 1, 0, 1, 1, 1, 1, 1, 1, 0, 1],
   [1, 0, 0, 0, 1, 0, 0, 0, 0, 0, 0, 0, 0, 0, 0, 1, 0, 0, 0, 0, 0, 0, 1],
   [1, 1, 1, 0, 1, 1, 1, 0, 1, 1, 1, 1, 1, 1, 1, 1, 0, 1, 0, 1, 1, 0, 1],
   [1, 0, 0, 0, 1, 0, 0, 0, 0, 0, 0, 1, 0, 0, 0, 0, 0, 1, 0, 1, 0, 0, 1],
   [1, 0, 1, 1, 1, 0, 1, 1, 1, 1, 0, 1, 0, 1, 1, 1, 1, 1, 0, 1, 1, 0, 1],
   [1, 0, 0, 0, 0, 0, 0, 0, 0, 0, 0, 1, 0, 0, 0, 0, 0, 0, 0, 0, 0, 0, 1],
   [1, 1, 1, 1, 1, 1, 1, 1, 1, 1, 1, 1, 1, 1, 1, 1, 1, 1, 1, 1, 1, 1, 1]]

/-- Maze layout3 of initMaze, transcribed verbatim from main.cpp lines 193-217. -/
def layout3 : List (List ℕ) :=
  [[1, 1, 1, 1, 1, 1, 1, 1, 1, 1, 1, 1, 1, 1, 1, 1, 1, 1, 1, 1, 1, 1, 1],
   [1, 0, 1, 0, 0, 0, 1, 0, 0, 0, 1, 0, 1, 0, 0, 0, 1, 0, 0, 0, 1, 0, 1],
   [1, 0, 1, 0, 1, 0, 1, 0, 1, 0, 1, 0, 1, 0, 1, 0, 0, 0, 1, 0, 1, 0, 1],
   [1, 0, 0, 0, 1, 0, 0, 0, 1, 0, 1, 0, 1, 0, 1, 1, 1, 0, 1, 0, 0, 0, 1],
   [1, 0, 1, 1, 1, 1, 1, 0, 1, 0, 1, 0, 1, 0, 0, 0, 1, 0, 1, 1, 1, 0, 1],
   [1, 0, 0, 0, 1, 0, 0, 0, 1, 0, 0, 0, 1, 1, 1, 0, 1, 0, 0, 0, 1, 0, 1],
   [1, 1, 1, 0, 1, 0, 1, 1, 1, 0, 1, 0, 0, 0, 1, 0, 1, 1, 1, 0, 1, 0, 1],
   [1, 0, 0, 0, 1, 0, 0, 0, 0, 0, 1, 0, 1, 0, 1, 0, 0, 0, 0, 0, 1, 0, 1],
   [1, 0, 1, 1, 1, 1, 1, 1, 1, 0, 1, 0, 1, 0, 1, 1, 1, 1, 1, 0, 1, 0, 1],
   [1, 0, 1, 0, 0, 0, 0, 0, 1, 0, 1, 0, 1, 0, 0, 0, 1, 0, 0, 0, 1, 0, 1],
   [1, 0, 1, 0, 1, 1, 1, 0, 1, 0, 1, 0, 1, 1, 1, 0, 1, 0, 1, 1, 1, 0, 1],
   [0, 0, 0, 0, 1, 0, 0, 0, 0, 0, 0, 0, 0, 0, 1, 0, 0, 0, 0, 0, 0, 0, 0],
   [1, 0, 1, 0, 1, 1, 1, 0, 1, 0, 1, 0, 1, 1, 1, 0, 1, 0, 1, 1, 1, 0, 1],
   [1, 0, 1, 0, 0, 0, 0, 0, 1, 0, 1, 0, 1, 0, 0, 0, 1, 0, 0, 0, 1, 0, 1],
   [1, 0, 1, 1, 1, 1, 1, 1, 1, 0, 1, 0, 1, 0, 1, 1, 1, 1, 1, 0, 1, 0, 1],
   [1, 0, 0, 0, 1, 0, 0, 0, 0, 0, 1, 0, 1, 0, 1, 0, 0, 0, 0, 0, 1, 0, 1],
   [1, 1, 1, 0, 1, 0, 1, 1, 1, 0, 1, 0, 0, 0, 1, 0, 1, 1, 1, 0, 1, 0, 1],
   [1, 0, 0, 0, 1, 0, 0, 0, 1, 0, 0, 0, 1, 1, 1, 0, 1, 0, 0, 0, 1, 0, 1],
   [1, 0, 1, 1, 1, 1, 1, 0, 1, 0, 1, 0, 1, 0, 0, 0, 1, 0, 1, 1, 1, 0, 1],
   [1, 0, 0, 0, 1, 0, 0, 0, 1, 0, 1, 0, 1, 0, 1, 1, 1, 0, 1, 0, 0, 0, 1],
   [1, 0, 1, 0, 1, 0, 1, 0, 1, 0, 1, 0, 1, 0, 1, 0, 0, 0, 1, 0, 1, 0, 1],
   [1, 0, 1, 0, 0, 0, 1, 0, 0, 0, 1, 0, 1, 0, 0, 0, 1, 0, 0, 0, 1, 0, 1],
   [1, 1, 1, 1, 1, 1, 1, 1, 1, 1, 1, 1, 1, 1, 1, 1, 1, 1, 1, 1, 1, 1, 1]]

/-- Reads a layout as a Maze function.  Out-of-bounds coordinates read as
wall; every access the embedded logic performs is behind the same bounds
check the source performs, so this default is never observed. -/
def mazeOfLayout (L : List (List ℕ)) : Maze := fun y x =>
  if 0 ≤ y ∧ y < ROWS ∧ 0 ≤ x ∧ x < COLS then (L.getD y.toNat []).getD x.toNat TILE_WALL
  else TILE_WALL

/-- initMaze (main.cpp lines 142-230): layout2 for level 2, layout3 for
level 3, layout1 for every other level number. -/
def initMaze (level : ℤ) : Maze :=
  if level = 2 then mazeOfLayout layout2
  else if level = 3 then mazeOfLayout layout3
  else mazeOfLayout layout1

/-- Every rational is dominated by the square of some natural. -/
theorem le_sq_nat (q : ℚ) : ∃ m : ℕ, q ≤ (m : ℚ) ^ 2 := by
  refine ⟨⌈q⌉₊, le_trans (Nat.le_ceil q) ?_⟩
  have h : (1 : ℚ) ≤ ⌈q⌉₊ ∨ (⌈q⌉₊ : ℚ) = 0 := by
    rcases Nat.eq_zero_or_pos ⌈q⌉₊ with h0 | h1
    · exact Or.inr (by exact_mod_cast h0)
    · exact Or.inl (by exact_mod_cast h1)
  rcases h with h | h
  · nlinarith
  · rw [h]; norm_num

/-- The least natural m with m * m at least q: the ceiling of the square
root of a nonnegative rational. -/
def sqrtCeil (q : ℚ) : ℕ := Nat.find (le_sq_nat q)

/-- The difficulty curve of main.cpp lines 811-813 (and identically lines
890-892), read over exact arithmetic:
delay = MIN + trunc((INITIAL - MIN) * (1 - sqrt p)) then clamped below at
MIN, with INITIAL - MIN = 200.  Since floor(200 - x) = 200 - ceil(x), the
unclamped value is 350 - ceil(200 * sqrt p), and ceil(200 * sqrt p) is the
least natural m with m ^ 2 at least 40000 * p.  The theorem
delayFor_agrees_with_real below proves this definition equal to the literal
real-number reading of the source formula.  (For p at most 1 the truncation
of the source acts on a nonnegative value and is the floor; for p above 1
the clamp makes the two readings agree as well.) -/
def delayFor (p : ℚ) : ℤ :=
  max MIN_CAT_DELAY_MS (INITIAL_CAT_DELAY_MS - sqrtCeil (40000 * p))

/-- The literal source formula of main.cpp lines 812-813 over the reals:
MIN + floor(200 * (1 - sqrt p)), clamped below at MIN. -/
noncomputable def delayForReal (p : ℝ) : ℤ :=
  max MIN_CAT_DELAY_MS
    (MIN_CAT_DELAY_MS +
      ⌊((INITIAL_CAT_DELAY_MS : ℝ) - (MIN_CAT_DELAY_MS : ℝ)) * (1 - Real.sqrt p)⌋)

/-- Game state enumeration of main.cpp line 60. -/
inductive GState where
  | INTRO
  | START_MENU
  | PLAYING
  | PAUSED
  | GAME_OVER
  | GAME_WON_LEVEL
  | GAME_WON_FINAL
  deriving DecidableEq, Repr

/-- A power-up (main.cpp lines 76-80).  The sparklePhase float is a purely
cosmetic animation phase owned by the renderer and is not modelled. -/
structure Powerup where
  x : ℤ
  y : ℤ
  type : ℕ
  deriving DecidableEq, Repr

/-- The global mutable state of main.cpp (lines 61-96) as one record.
lastTickTime is not carried: idle receives the elapsed time directly.
rand() is modelled as the stream rand consumed at cursor rngIdx. -/
structure GameState where
  currentGameState : GState
  playerX : ℤ
  playerY : ℤ
  catX : ℤ
  catY : ℤ
  maze : Maze
  currentLevel : ℤ
  score : ℤ
  totalScore : ℤ
  initialCheeseCount : ℤ
  cheeseLocations : List (ℤ × ℤ)
  powerupLocations : List Powerup
  isCatSlowed : Bool
  catSlowDurationTimer : ℤ
  currentCatDelay : ℤ
  normalCatDelayBeforeSlowdown : ℤ
  timerActive : Bool
  resetIdentifier : ℤ
  rand : ℕ → ℕ
  rngIdx : ℕ

/-- A callback handed to glutTimerFunc: the periodic cat tick carrying its
epoch (main.cpp line 693), or the one-shot level-advance carrying the level
to load (line 343). -/
inductive Sched where
  | catTick (delayMs : ℤ) (epoch : ℤ)
  | levelAdvance (delayMs : ℤ) (level : ℤ)
  deriving DecidableEq, Repr

/-- One BFS bookkeeping state of moveCat: the queue, the visited list, and
the parent pointers as a (child, parent) association list.  Absence of a key
models parent == (-1, -1). -/
structure BfsState where
  q : List Pos
  vis : List Pos
  par : List (Pos × Pos)

/-- Parent lookup in the association list. -/
def lookupPar (par : List (Pos × Pos)) (p : Pos) : Option Pos :=
  (par.find? (fun e => e.1 == p)).map (fun e => e.2)

/-- The inner neighbor loop of the BFS (main.cpp lines 621-641): try the
candidates of u in order; each valid unvisited one is pushed, marked
visited, and given parent u; when the pushed neighbor is the player the
loop stops early reporting it found. -/
def expand (m : Maze) (player u : Pos) : BfsState → List Pos → BfsState × Option Pos
  | s, [] => (s, none)
  | s, c :: cs =>
    if isPathAt m c ∧ c ∉ s.vis then
      let s1 : BfsState := ⟨s.q ++ [c], c :: s.vis, (c, u) :: s.par⟩
      if c = player then (s1, some c) else expand m player u s1 cs
    else expand m player u s cs

/-- Fuel bound for the BFS loop: strictly more than the 529 grid cells, so
the loop below never runs out (proved in the fuel-sufficiency lemmas). -/
def bfsFuel : ℕ := 530

/-- The outer BFS loop of moveCat (main.cpp lines 608-642): pop the head,
stop if it is the player (this only fires for the initial cat cell, every
later cell is tested when pushed), otherwise expand it.  Returns the parent
map on success; in both found paths of the source targetX/targetY equal the
player position, so the target is not returned separately.  none means the
frontier emptied (or the fuel ran out, which bfsFuel forbids). -/
def bfsLoop (m : Maze) (player : Pos) : ℕ → BfsState → Option (List (Pos × Pos))
  | 0, _ => none
  | fuel + 1, s =>
    match s.q with
    | [] => none
    | u :: rest =>
      if u = player then some s.par
      else
        let r := expand m player u ⟨rest, s.vis, s.par⟩ (candidates u)
        match r.2 with
        | some _ => some r.1.par
        | none => bfsLoop m player fuel r.1

/-- The backtracking loop of moveCat (main.cpp lines 647-662): walk parent
pointers from the target down; answer the chain node whose parent is the
cat, or none when the chain is degenerate (then the cat stays). -/
def backtrack (par : List (Pos × Pos)) (cat : Pos) : ℕ → Pos → Option Pos
  | 0, _ => none
  | fuel + 1, c =>
    if c = cat then none
    else
      match lookupPar par c with
      | none => none
      | some p => if p = cat then some c else backtrack par cat fuel p

/-- The cat position moveCat produces: BFS from the cat, then one
backtracked step; the cat stays when the player is unreachable or the
backtrack finds no step. -/
def moveCatPos (m : Maze) (cat player : Pos) : Pos :=
  match bfsLoop m player bfsFuel ⟨[cat], [cat], []⟩ with
  | none => cat
  | some par =>
    match backtrack par cat bfsFuel player with
    | none => cat
    | some nxt => nxt

/-- moveCat (main.cpp lines 589-679) on the full game state: when the BFS
does not find the player the function returns unchanged (the caught check
is skipped, line 644); otherwise the cat advances one backtracked step and
the caught check runs (lines 671-678). -/
def moveCat (s : GameState) : GameState :=
  match bfsLoop s.maze (s.playerX, s.playerY)
      bfsFuel ⟨[(s.catX, s.catY)], [(s.catX, s.catY)], []⟩ with
  | none => s
  | some par =>
      let nxt :=
        match backtrack par (s.catX, s.catY) bfsFuel (s.playerX, s.playerY) with
        | none => (s.catX, s.catY)
        | some p => p
      let s1 := { s with catX := nxt.1, catY := nxt.2 }
      if s1.catX = s1.playerX ∧ s1.catY = s1.playerY ∧
          s1.currentGameState = GState.PLAYING then
        { s1 with totalScore := s1.totalScore + s1.score, score := 0,
                  currentGameState := GState.GAME_OVER, timerActive := false }
      else s1

/-- catTimer (main.cpp lines 685-695): drop a stale epoch (unless in the
start menu, where the next guard drops it anyway); while playing and
active, move the cat unless slowed and reschedule with the current delay
and the current epoch. -/
def catTimer (value : ℤ) (s : GameState) : GameState × Option Sched :=
  if value ≠ s.resetIdentifier ∧ s.currentGameState ≠ GState.START_MENU then (s, none)
  else if s.currentGameState = GState.PLAYING ∧ s.timerActive = true then
    let s1 := if s.isCatSlowed then s else moveCat s
    (s1, some (Sched.catTick s1.currentCatDelay s1.resetIdentifier))
  else (s, none)

/-- Attempt budget of initLevelData: ROWS * COLS * 10 (main.cpp line 247). -/
def maxAttempts : ℕ := 23 * 23 * 10

/-- The cheese rejection-sampling loop of initLevelData (main.cpp lines
248-265): draw a column then a row from the rand stream, accept a path tile
distinct from both start tiles and not already holding cheese.  The fuel is
the remaining attempt budget; acc.length plays placedCheese.  Returns the
cheese list and the advanced stream cursor. -/
def cheeseLoop (m : Maze) (rand : ℕ → ℕ) : ℕ → ℕ → List (ℤ × ℤ) → List (ℤ × ℤ) × ℕ
  | 0, i, acc => (acc, i)
  | fuel + 1, i, acc =>
    if acc.length < NUM_CHEESE_TO_PLACE then
      let rx : ℤ := (rand i % 23 : ℕ)
      let ry : ℤ := (rand (i + 1) % 23 : ℕ)
      if m ry rx = TILE_PATH ∧ ¬(rx = PLAYER_START_X ∧ ry = PLAYER_START_Y) ∧
          ¬(rx = CAT_START_X ∧ ry = CAT_START_Y) then
        if (rx, ry) ∈ acc then cheeseLoop m rand fuel (i + 2) acc
        else cheeseLoop m rand fuel (i + 2) (acc ++ [(rx, ry)])
      else cheeseLoop m rand fuel (i + 2) acc
    else (acc, i)

/-- The power-up rejection-sampling loop of initLevelData (main.cpp lines
266-291): like the cheese loop, additionally rejecting tiles already holding
cheese or a power-up. -/
def powerupLoop (m : Maze) (rand : ℕ → ℕ) (cheese : List (ℤ × ℤ)) :
    ℕ → ℕ → List Powerup → List Powerup × ℕ
  | 0, i, acc => (acc, i)
  | fuel + 1, i, acc =>
    if acc.length < NUM_POWERUPS_PER_LEVEL then
      let rx : ℤ := (rand i % 23 : ℕ)
      let ry : ℤ := (rand (i + 1) % 23 : ℕ)
      if m ry rx = TILE_PATH ∧ ¬(rx = PLAYER_START_X ∧ ry = PLAYER_START_Y) ∧
          ¬(rx = CAT_START_X ∧ ry = CAT_START_Y) then
        if (rx, ry) ∈ cheese ∨ acc.any (fun p => p.x = rx ∧ p.y = ry) then
          powerupLoop m rand cheese fuel (i + 2) acc
        else powerupLoop m rand cheese fuel (i + 2) (acc ++ [⟨rx, ry, TILE_SLOW_POWERUP⟩])
      else powerupLoop m rand cheese fuel (i + 2) acc
    else (acc, i)

/-- initLevelData (main.cpp lines 235-304): reset score and delay, place
cheese then power-ups by rejection sampling, record the initial cheese
count, reset both positions to their start tiles and clear the slow effect.
The console warnings on a shortfall are output only (non-fatal). -/
def initLevelData (s : GameState) : GameState :=
  let r1 := cheeseLoop s.maze s.rand maxAttempts s.rngIdx []
  let r2 := powerupLoop s.maze s.rand r1.1 maxAttempts r1.2 []
  { s with score := 0,
           currentCatDelay := INITIAL_CAT_DELAY_MS,
           cheeseLocations := r1.1,
           powerupLocations := r2.1,
           initialCheeseCount := (r1.1.length : ℤ),
           playerX := PLAYER_START_X, playerY := PLAYER_START_Y,
           catX := CAT_START_X, catY := CAT_START_Y,
           isCatSlowed := false,
           catSlowDurationTimer := 0,
           normalCatDelayBeforeSlowdown := INITIAL_CAT_DELAY_MS,
           rngIdx := r2.2 }

/-- The first block of resetGame (main.cpp lines 316-319): epoch bumped,
timer off, level 1, zero total score. -/
def resetInner (s : GameState) : GameState :=
  { s with resetIdentifier := s.resetIdentifier + 1,
           timerActive := false,
           currentLevel := 1,
           totalScore := 0 }

/-- The state resetGame (main.cpp lines 314-326) builds before its final
catTimer call: epoch bumped, level 1 with zero total score, maze reloaded,
level data reinitialized, PLAYING with the timer active. -/
def resetState (s : GameState) : GameState :=
  { initLevelData { resetInner s with maze := initMaze (resetInner s).currentLevel } with
    currentGameState := GState.PLAYING, timerActive := true }

/-- resetGame (main.cpp lines 314-327): build resetState and run catTimer
synchronously with the fresh epoch (which both moves the cat once and
schedules the periodic tick). -/
def resetGame (s : GameState) : GameState × Option Sched :=
  let s2 := resetState s
  catTimer s2.resetIdentifier s2

/-- nextLevel (main.cpp lines 332-355): bank the level score, advance the
level; beyond MAX_LEVELS the terminal win state, otherwise the level-won
interlude with a 2000 ms level-advance callback scheduled. -/
def nextLevel (s : GameState) : GameState × Option Sched :=
  let s1 := { s with totalScore := s.totalScore + s.score, score := 0,
                     currentLevel := s.currentLevel + 1, timerActive := false }
  if MAX_LEVELS < s1.currentLevel then
    ({ s1 with currentGameState := GState.GAME_WON_FINAL }, none)
  else
    ({ s1 with currentGameState := GState.GAME_WON_LEVEL },
     some (Sched.levelAdvance 2000 s1.currentLevel))

/-- The level-advance lambda of nextLevel (main.cpp lines 343-352): bump the
epoch, load the captured level, re-enter PLAYING and run catTimer with the
fresh epoch. -/
def levelAdvanceCallback (lvl : ℤ) (s : GameState) : GameState × Option Sched :=
  let s1 := { s with resetIdentifier := s.resetIdentifier + 1, maze := initMaze lvl }
  let s2 := { initLevelData s1 with
              currentGameState := GState.PLAYING, timerActive := true }
  catTimer s2.resetIdentifier s2

/-- The power-up scan of processPlayerMove (main.cpp lines 829-846): walk
the list; the first power-up under the player of slow type while no slow
effect is active is removed and reported collected; any other entry (other
position, or inert under an active effect) is kept and the scan continues. -/
def powerupScan (px py : ℤ) (slowed : Bool) : List Powerup → List Powerup × Bool
  | [] => ([], false)
  | p :: ps =>
    if p.x = px ∧ p.y = py ∧ p.type = TILE_SLOW_POWERUP ∧ slowed = false then
      (ps, true)
    else
      let r := powerupScan px py slowed ps
      (p :: r.1, r.2)

/-- The power-up pickup step of processPlayerMove: activate the slow effect
(saving the pre-effect delay and forcing the delay up to at least
INITIAL + 100) and remove the collected power-up. -/
def powerupPhase (s : GameState) : GameState :=
  let r := powerupScan s.playerX s.playerY s.isCatSlowed s.powerupLocations
  if r.2 then
    { s with isCatSlowed := true,
             catSlowDurationTimer := CAT_SLOW_DURATION_MS,
             normalCatDelayBeforeSlowdown := s.currentCatDelay,
             currentCatDelay := max s.currentCatDelay (INITIAL_CAT_DELAY_MS + 100),
             powerupLocations := r.1 }
  else s

/-- processPlayerMove (main.cpp lines 790-849): resolve the tunnel wrap,
reject a candidate that is not a path tile (no state change); on a valid
move relocate the player, collect cheese (erasing the first match, bumping
the score, recomputing the delay unless slowed, and advancing the level
when the last cheese is gone, which skips the power-up scan), then scan for
a power-up pickup. -/
def processPlayerMove (nextX0 nextY0 : ℤ) (s : GameState) : GameState × Option Sched :=
  let c := wrapTunnel nextX0 nextY0
  if isPathAt s.maze c then
    let s1 := { s with playerX := c.1, playerY := c.2 }
    if (s1.playerX, s1.playerY) ∈ s1.cheeseLocations then
      let s2 := { s1 with
                  cheeseLocations := s1.cheeseLocations.erase (s1.playerX, s1.playerY),
                  score := s1.score + 1 }
      let s3 :=
        if s2.isCatSlowed = false ∧ 0 < s2.initialCheeseCount then
          let d := delayFor ((s2.score : ℚ) / (s2.initialCheeseCount : ℚ))
          { s2 with currentCatDelay := d, normalCatDelayBeforeSlowdown := d }
        else s2
      if s3.cheeseLocations.isEmpty then nextLevel s3
      else (powerupPhase s3, none)
    else (powerupPhase s1, none)
  else (s, none)

/-- keyboard (main.cpp lines 708-762), over ASCII key codes ('r' is 114,
'R' 82, 'p' 112, 'P' 80, w/W 119/87, s/S 115/83, a/A 97/65, d/D 100/68,
Enter 13, Escape 27).  exit(0) terminates the process and is modelled as
returning the state unchanged with nothing scheduled. -/
def keyboard (key : ℕ) (s : GameState) : GameState × Option Sched :=
  if s.currentGameState = GState.INTRO then
    ({ s with currentGameState := GState.START_MENU }, none)
  else if s.currentGameState = GState.START_MENU then
    if key = 13 then resetGame s else (s, none)
  else if s.currentGameState = GState.GAME_OVER ∨
          s.currentGameState = GState.GAME_WON_FINAL ∨
          s.currentGameState = GState.GAME_WON_LEVEL then
    if (key = 114 ∨ key = 82) ∧ s.currentGameState ≠ GState.GAME_WON_FINAL then
      resetGame s
    else (s, none)
  else if key = 112 ∨ key = 80 then
    if s.currentGameState = GState.PLAYING then
      ({ s with currentGameState := GState.PAUSED, timerActive := false }, none)
    else if s.currentGameState = GState.PAUSED then
      let s1 := { s with currentGameState := GState.PLAYING, timerActive := true,
                         resetIdentifier := s.resetIdentifier + 1 }
      catTimer s1.resetIdentifier s1
    else (s, none)
  else if key = 27 then (s, none)
  else if s.currentGameState ≠ GState.PLAYING then (s, none)
  else if key = 114 ∨ key = 82 then resetGame s
  else if key = 119 ∨ key = 87 then processPlayerMove s.playerX (s.playerY - 1) s
  else if key = 115 ∨ key = 83 then processPlayerMove s.playerX (s.playerY + 1) s
  else if key = 97 ∨ key = 65 then processPlayerMove (s.playerX - 1) s.playerY s
  else if key = 100 ∨ key = 68 then processPlayerMove (s.playerX + 1) s.playerY s
  else (s, none)

/-- idle (main.cpp lines 872-903) for one frame whose elapsed time is
deltaTime (the source derives it from GLUT_ELAPSED_TIME and lastTickTime).
While playing with the slow effect active, age the effect; on expiry clear
it and recompute the delay from the current collected fraction (the same
formula as the pickup path, that is delayFor), falling back to the saved
pre-effect delay only when no cheese was placed.  The sparklePhase float
animation is renderer-owned and not modelled. -/
def idle (deltaTime : ℤ) (s : GameState) : GameState :=
  if 0 < deltaTime then
    if (s.currentGameState = GState.PLAYING ∨ s.currentGameState = GState.PAUSED) ∧
        s.isCatSlowed = true ∧ s.currentGameState = GState.PLAYING then
      let t := s.catSlowDurationTimer - deltaTime
      if t ≤ 0 then
        let d :=
          if 0 < s.initialCheeseCount then
            delayFor ((s.score : ℚ) / (s.initialCheeseCount : ℚ))
          else s.normalCatDelayBeforeSlowdown
        { s with catSlowDurationTimer := t, isCatSlowed := false, currentCatDelay := d }
      else { s with catSlowDurationTimer := t }
    else s
  else s

/-- The state right after a level initialization: the maze of the given
level loaded and initLevelData run, in the PLAYING state, as produced by
resetGame, the level-advance callback and main before their catTimer call.
The stream cursor starts at 0 and the remaining fields are as resetGame
sets them. -/
def initState (lvl : ℤ) (rand : ℕ → ℕ) : GameState :=
  initLevelData
    { currentGameState := GState.PLAYING
      playerX := PLAYER_START_X, playerY := PLAYER_START_Y
      catX := CAT_START_X, catY := CAT_START_Y
      maze := initMaze lvl
      currentLevel := lvl
      score := 0, totalScore := 0, initialCheeseCount := 0
      cheeseLocations := [], powerupLocations := []
      isCatSlowed := false, catSlowDurationTimer := 0
      currentCatDelay := INITIAL_CAT_DELAY_MS
      normalCatDelayBeforeSlowdown := INITIAL_CAT_DELAY_MS
      timerActive := true
      resetIdentifier := 1
      rand := rand, rngIdx := 0 }

/-- The states reachable from a level initialization by any sequence of
player moves and cat steps (claim C9).  Player moves may aim at any
candidate tile, which subsumes the four unit moves the keyboard produces. -/
inductive Reach : GameState → Prop
  | init (lvl : ℤ) (rand : ℕ → ℕ) : Reach (initState lvl rand)
  | player {s : GameState} (nx ny : ℤ) : Reach s → Reach (processPlayerMove nx ny s).1
  | cat {s : GameState} : Reach s → Reach (moveCat s)

/-! ## Basic facts about the embedded operations -/

theorem powerupPhase_fields (s : GameState) :
    (powerupPhase s).playerX = s.playerX ∧ (powerupPhase s).playerY = s.playerY ∧
    (powerupPhase s).catX = s.catX ∧ (powerupPhase s).catY = s.catY ∧
    (powerupPhase s).maze = s.maze ∧ (powerupPhase s).score = s.score ∧
    (powerupPhase s).totalScore = s.totalScore ∧
    (powerupPhase s).currentGameState = s.currentGameState ∧
    (powerupPhase s).currentLevel = s.currentLevel ∧
    (powerupPhase s).cheeseLocations = s.cheeseLocations ∧
    (powerupPhase s).initialCheeseCount = s.initialCheeseCount := by
  dsimp only [powerupPhase]
  split <;> simp

theorem nextLevel_fields (s : GameState) :
    (nextLevel s).1.playerX = s.playerX ∧ (nextLevel s).1.playerY = s.playerY ∧
    (nextLevel s).1.catX = s.catX ∧ (nextLevel s).1.catY = s.catY ∧
    (nextLevel s).1.maze = s.maze ∧ (nextLevel s).1.score = 0 ∧
    ((nextLevel s).1.currentGameState = GState.GAME_WON_FINAL ∨
     (nextLevel s).1.currentGameState = GState.GAME_WON_LEVEL) := by
  dsimp only [nextLevel]
  split <;> simp

/-- A rejected player move (candidate not a path tile) is a complete no-op:
the very same state comes back and nothing is scheduled. -/
theorem processPlayerMove_rejected {s : GameState} {nx ny : ℤ}
    (h : ¬ isPathAt s.maze (wrapTunnel nx ny)) :
    processPlayerMove nx ny s = (s, none) := by
  unfold processPlayerMove
  exact if_neg h

/-- The player position a valid move produces is the wrap-resolved candidate,
whatever the pickup logic then does. -/
theorem processPlayerMove_playerPos {s : GameState} {nx ny : ℤ}
    (h : isPathAt s.maze (wrapTunnel nx ny)) :
    (processPlayerMove nx ny s).1.playerX = (wrapTunnel nx ny).1 ∧
    (processPlayerMove nx ny s).1.playerY = (wrapTunnel nx ny).2 := by
  unfold processPlayerMove
  rw [if_pos h]
  dsimp only
  split
  · split <;> split
    all_goals
      first
        | exact ⟨(nextLevel_fields _).1, (nextLevel_fields _).2.1⟩
        | exact ⟨(powerupPhase_fields _).1, (powerupPhase_fields _).2.1⟩
  · exact ⟨(powerupPhase_fields _).1, (powerupPhase_fields _).2.1⟩

/-- Neighbor generation only ever yields in-grid positions. -/
theorem nbrs_in_grid {m : Maze} {p q : Pos} (h : q ∈ nbrs m p) :
    0 ≤ q.1 ∧ q.1 < COLS ∧ 0 ≤ q.2 ∧ q.2 < ROWS := by
  have hp := isPathAt_of_mem_nbrs h
  exact ⟨hp.1, hp.2.1, hp.2.2.1, hp.2.2.2.1⟩

/-- Off the tunnel row the wrap leaves the candidate untouched. -/
theorem wrapTunnel_off_row {x y : ℤ} (h : y ≠ TUNNEL_ROW_INDEX) :
    wrapTunnel x y = (x, y) := by
  unfold wrapTunnel
  exact if_neg h

/-! ## Difficulty curve lemmas -/

theorem sqrtCeil_spec (q : ℚ) : q ≤ (sqrtCeil q : ℚ) ^ 2 := Nat.find_spec (le_sq_nat q)

theorem sqrtCeil_min {q : ℚ} {k : ℕ} (h : k < sqrtCeil q) : ¬ q ≤ (k : ℚ) ^ 2 :=
  Nat.find_min (le_sq_nat q) h

theorem sqrtCeil_mono {q r : ℚ} (h : q ≤ r) : sqrtCeil q ≤ sqrtCeil r :=
  Nat.find_mono (fun _ hr => le_trans h hr)

theorem sqrtCeil_zero : sqrtCeil 0 = 0 := by
  have : (0 : ℚ) ≤ ((0 : ℕ) : ℚ) ^ 2 := by norm_num
  exact Nat.le_zero.mp (Nat.find_le this)

theorem sqrtCeil_forty_thousand : sqrtCeil 40000 = 200 := by
  rw [sqrtCeil, Nat.find_eq_iff]
  constructor
  · norm_num
  · intro k hk
    have hk199 : (k : ℚ) ≤ 199 := by exact_mod_cast Nat.lt_succ_iff.mp hk
    have hk0 : (0 : ℚ) ≤ (k : ℚ) := by positivity
    intro hc
    nlinarith

theorem delayFor_zero : delayFor 0 = INITIAL_CAT_DELAY_MS := by
  rw [delayFor]
  norm_num [sqrtCeil_zero, INITIAL_CAT_DELAY_MS, MIN_CAT_DELAY_MS]

theorem delayFor_one : delayFor 1 = MIN_CAT_DELAY_MS := by
  rw [delayFor]
  norm_num [sqrtCeil_forty_thousand, INITIAL_CAT_DELAY_MS, MIN_CAT_DELAY_MS]

theorem delayFor_antitone {a b : ℚ} (h : a ≤ b) : delayFor b ≤ delayFor a := by
  unfold delayFor
  have hm : sqrtCeil (40000 * a) ≤ sqrtCeil (40000 * b) :=
    sqrtCeil_mono (by linarith)
  have : (INITIAL_CAT_DELAY_MS - sqrtCeil (40000 * b) : ℤ) ≤
      INITIAL_CAT_DELAY_MS - sqrtCeil (40000 * a) := by
    have := Int.ofNat_le.mpr hm
    omega
  exact max_le_max le_rfl this

/-- The rational delayFor above equals the literal real-number reading of
the source formula on every nonnegative fraction. -/
theorem delayFor_agrees_with_real (p : ℚ) (hp : 0 ≤ p) :
    delayForReal (p : ℝ) = delayFor p := by
  have hpr : (0 : ℝ) ≤ (p : ℝ) := by exact_mod_cast hp
  have h200 : ((INITIAL_CAT_DELAY_MS : ℝ) - (MIN_CAT_DELAY_MS : ℝ)) = 200 := by
    norm_num [INITIAL_CAT_DELAY_MS, MIN_CAT_DELAY_MS]
  have hsqrt : Real.sqrt (40000 * (p : ℝ)) = 200 * Real.sqrt (p : ℝ) := by
    have : (40000 : ℝ) * (p : ℝ) = (200 : ℝ) ^ 2 * (p : ℝ) := by norm_num
    rw [this, Real.sqrt_mul (by positivity) _, Real.sqrt_sq (by norm_num : (0 : ℝ) ≤ 200)]
  have hceil : ⌈(200 : ℝ) * Real.sqrt (p : ℝ)⌉ = (sqrtCeil (40000 * p) : ℤ) := by
    rw [Int.ceil_eq_iff]
    constructor
    · cases hs : sqrtCeil (40000 * p) with
      | zero =>
          have : (0 : ℝ) ≤ 200 * Real.sqrt (p : ℝ) := by positivity
          push_cast
          linarith
      | succ k =>
          have hk : ¬ ((40000 * p : ℚ) ≤ (k : ℚ) ^ 2) := by
            apply sqrtCeil_min
            rw [hs]
            exact Nat.lt_succ_self k
          have hk2 : ((k : ℝ)) ^ 2 < 40000 * (p : ℝ) := by
            have hq : (k : ℚ) ^ 2 < 40000 * p := lt_of_not_le hk
            exact_mod_cast hq
          have := (Real.lt_sqrt (by positivity : (0 : ℝ) ≤ (k : ℝ))).mpr hk2
          rw [hsqrt] at this
          push_cast
          linarith
    · have hs1 := sqrtCeil_spec (40000 * p)
      have hs2 : (40000 : ℝ) * (p : ℝ) ≤ ((sqrtCeil (40000 * p) : ℝ)) ^ 2 := by
        exact_mod_cast hs1
      have := (Real.sqrt_le_left (by positivity :
        (0 : ℝ) ≤ (sqrtCeil (40000 * p) : ℝ))).mpr hs2
      rw [hsqrt] at this
      exact_mod_cast this
  have hfloor : ⌊(200 : ℝ) * (1 - Real.sqrt (p : ℝ))⌋ =
      200 - ⌈(200 : ℝ) * Real.sqrt (p : ℝ)⌉ := by
    have heq : (200 : ℝ) * (1 - Real.sqrt (p : ℝ)) =
        -((200 : ℝ) * Real.sqrt (p : ℝ) - ((200 : ℤ) : ℝ)) := by
      push_cast
      ring
    rw [heq, Int.floor_neg, Int.ceil_sub_int]
    omega
  rw [delayForReal, h200, hfloor, hceil]
  rw [delayFor]
  have hMIN : (MIN_CAT_DELAY_MS : ℤ) = 150 := rfl
  have hINIT : (INITIAL_CAT_DELAY_MS : ℤ) = 350 := rfl
  omega

/-! ## BFS parent-map membership facts -/

theorem expand_par_mem (m : Maze) (player u : Pos) :
    ∀ (cs : List Pos) (s : BfsState) (e : Pos × Pos),
      e ∈ (expand m player u s cs).1.par →
      e ∈ s.par ∨ (isPathAt m e.1 ∧ e.1 ∈ cs ∧ e.2 = u) := by
  intro cs
  induction cs with
  | nil =>
      intro s e he
      exact Or.inl he
  | cons c cs ih =>
      intro s e he
      by_cases hc : isPathAt m c ∧ c ∉ s.vis
      · rw [expand, if_pos hc] at he
        by_cases hp : c = player
        · rw [if_pos hp] at he
          rcases List.mem_cons.mp he with h | h
          · exact Or.inr ⟨h ▸ hc.1, h ▸ List.mem_cons_self c cs, h ▸ rfl⟩
          · exact Or.inl h
        · rw [if_neg hp] at he
          rcases ih _ e he with h | h
          · rcases List.mem_cons.mp h with h1 | h1
            · exact Or.inr ⟨h1 ▸ hc.1, h1 ▸ List.mem_cons_self c cs, h1 ▸ rfl⟩
            · exact Or.inl h1
          · exact Or.inr ⟨h.1, List.mem_cons_of_mem c h.2.1, h.2.2⟩
      · rw [expand, if_neg hc] at he
        rcases ih s e he with h | h
        · exact Or.inl h
        · exact Or.inr ⟨h.1, List.mem_cons_of_mem c h.2.1, h.2.2⟩

theorem bfsLoop_par_mem (m : Maze) (player : Pos) :
    ∀ (fuel : ℕ) (s : BfsState) (par : List (Pos × Pos)),
      bfsLoop m player fuel s = some par →
      ∀ e ∈ par, e ∈ s.par ∨ (isPathAt m e.1 ∧ e.1 ∈ nbrs m e.2) := by
  intro fuel
  induction fuel with
  | zero =>
      intro s par h
      simp [bfsLoop] at h
  | succ fuel ih =>
      intro s par h e he
      rw [bfsLoop] at h
      cases hq : s.q with
      | nil => rw [hq] at h; cases h
      | cons u rest =>
          rw [hq] at h
          dsimp only at h
          by_cases hp : u = player
          · rw [if_pos hp] at h
            cases h
            exact Or.inl he
          · rw [if_neg hp] at h
            have hexp := expand_par_mem m player u (candidates u) ⟨rest, s.vis, s.par⟩
            cases hr : (expand m player u ⟨rest, s.vis, s.par⟩ (candidates u)).2 with
            | some t =>
                rw [hr] at h
                cases h
                rcases hexp e he with h1 | h1
                · exact Or.inl h1
                · refine Or.inr ⟨h1.1, ?_⟩
                  rw [h1.2.2]
                  exact List.mem_filter.mpr ⟨h1.2.1, decide_eq_true h1.1⟩
            | none =>
                rw [hr] at h
                rcases ih _ _ h e he with h1 | h1
                · rcases hexp e h1 with h2 | h2
                  · exact Or.inl h2
                  · refine Or.inr ⟨h2.1, ?_⟩
                    rw [h2.2.2]
                    exact List.mem_filter.mpr ⟨h2.2.1, decide_eq_true h2.1⟩
                · exact Or.inr h1

theorem backtrack_lookup (par : List (Pos × Pos)) (cat : Pos) :
    ∀ (fuel : ℕ) (c nxt : Pos), backtrack par cat fuel c = some nxt →
      lookupPar par nxt = some cat := by
  intro fuel
  induction fuel with
  | zero =>
      intro c nxt h
      simp [backtrack] at h
  | succ fuel ih =>
      intro c nxt h
      rw [backtrack] at h
      by_cases hc : c = cat
      · rw [if_pos hc] at h; cases h
      · rw [if_neg hc] at h
        cases hl : lookupPar par c with
        | none => rw [hl] at h; cases h
        | some p =>
            rw [hl] at h
            dsimp only at h
            by_cases hp : p = cat
            · rw [if_pos hp] at h
              cases h
              rw [hl, hp]
            · rw [if_neg hp] at h
              exact ih _ _ h

theorem lookupPar_mem {par : List (Pos × Pos)} {p u : Pos}
    (h : lookupPar par p = some u) : (p, u) ∈ par := by
  unfold lookupPar at h
  cases hf : par.find? (fun e => e.1 == p) with
  | none => rw [hf] at h; cases h
  | some e =>
      rw [hf] at h
      have hm := List.mem_of_find?_eq_some hf
      have hp := List.find?_some hf
      simp only [Option.map_some', Option.some.injEq] at h
      have h1 : e.1 = p := by simpa using hp
      have : e = (p, u) := by
        cases e
        simp_all
      exact this ▸ hm

/-- The cat either stays put or steps to a neighbor of its old cell. -/
theorem moveCat_cat_step (s : GameState) :
    ((moveCat s).catX, (moveCat s).catY) = (s.catX, s.catY) ∨
    ((moveCat s).catX, (moveCat s).catY) ∈ nbrs s.maze (s.catX, s.catY) := by
  unfold moveCat
  cases hb : bfsLoop s.maze (s.playerX, s.playerY)
      bfsFuel ⟨[(s.catX, s.catY)], [(s.catX, s.catY)], []⟩ with
  | none => simp
  | some par =>
      dsimp only
      cases hbt : backtrack par (s.catX, s.catY) bfsFuel (s.playerX, s.playerY) with
      | none =>
          left
          split <;> simp
      | some nxt =>
          have hl := backtrack_lookup par (s.catX, s.catY) bfsFuel _ _ hbt
          have hmem := lookupPar_mem hl
          rcases bfsLoop_par_mem _ _ _ _ _ hb _ hmem with h | h
          · simp at h
          · right
            split <;> simpa using h.2

/-! ## catTimer facts -/

/-- A tick whose epoch does not match the session epoch changes nothing and
schedules nothing, whatever the state. -/
theorem catTimer_stale {s : GameState} {k : ℤ} (h : k ≠ s.resetIdentifier) :
    catTimer k s = (s, none) := by
  unfold catTimer
  by_cases hm : s.currentGameState = GState.START_MENU
  · rw [if_neg (by simp [hm]), if_neg (by simp [hm])]
  · rw [if_pos ⟨h, hm⟩]

/-- A concrete mid-game state on layout1, used by several witnesses. -/
def sampleState : GameState :=
  { currentGameState := GState.PLAYING
    playerX := 1, playerY := 1
    catX := 11, catY := 11
    maze := mazeOfLayout layout1
    currentLevel := 1
    score := 3, totalScore := 0
    initialCheeseCount := 12
    cheeseLocations := [(5, 1), (9, 3)]
    powerupLocations := [⟨21, 1, TILE_SLOW_POWERUP⟩]
    isCatSlowed := false
    catSlowDurationTimer := 0
    currentCatDelay := 350
    normalCatDelayBeforeSlowdown := 350
    timerActive := true
    resetIdentifier := 1
    rand := fun _ => 0
    rngIdx := 0 }

/-! ## Claim C8 -/

/-- Claim C8: a move whose wrap-resolved candidate tile is not a Path tile
leaves the player position, the per-level score, and every other session
field unchanged (the very same state comes back, with nothing scheduled). -/
theorem C8_invalid_move_is_noop (s : GameState) (nx ny : ℤ)
    (h : ¬ isPathAt s.maze (wrapTunnel nx ny)) :
    processPlayerMove nx ny s = (s, none) :=
  processPlayerMove_rejected h

/-- Witness for C8: from (1,1) on layout1, moving up targets the wall (1,0). -/
theorem C8_witness :
    ¬ isPathAt sampleState.maze (wrapTunnel 1 0) ∧
    processPlayerMove 1 0 sampleState = (sampleState, none) :=
  ⟨by decide, C8_invalid_move_is_noop sampleState 1 0 (by decide)⟩

/-! ## Claim C3 -/

/-- Claim C3: a scheduled cat-tick callback carrying an epoch from an
earlier reset (strictly below the session's current resetIdentifier) is a
no-op when it fires: the entire game state is unchanged and nothing is
rescheduled.  Proven for every state, so in particular for every reachable
one. -/
theorem C3_stale_epoch_noop (s : GameState) (k : ℤ) (h : k < s.resetIdentifier) :
    catTimer k s = (s, none) :=
  catTimer_stale (ne_of_lt h)

/-- Witness for C3 at epoch 0 against a session at epoch 1. -/
theorem C3_witness :
    (0 : ℤ) < sampleState.resetIdentifier ∧ catTimer 0 sampleState = (sampleState, none) :=
  ⟨by decide, C3_stale_epoch_noop sampleState 0 (by decide)⟩

/-! ## Claim C4 -/

/-- Claim C4: the difficulty curve satisfies delayFor 0 = INITIAL_CAT_DELAY_MS
(350 ms) and delayFor 1 = MIN_CAT_DELAY_MS (150 ms), and is monotonically
non-increasing over collected fractions a at most b in [0, 1]. -/
theorem C4_delay_curve :
    delayFor 0 = INITIAL_CAT_DELAY_MS ∧ delayFor 1 = MIN_CAT_DELAY_MS ∧
    ∀ a b : ℚ, 0 ≤ a → a ≤ b → b ≤ 1 → delayFor b ≤ delayFor a :=
  ⟨delayFor_zero, delayFor_one, fun _ _ _ hab _ => delayFor_antitone hab⟩

/-- Witness for C4 at the endpoints 0 and 1. -/
theorem C4_witness :
    (0 : ℚ) ≤ 0 ∧ (0 : ℚ) ≤ 1 ∧ (1 : ℚ) ≤ 1 ∧ delayFor 1 ≤ delayFor 0 :=
  ⟨le_refl 0, by norm_num, le_refl 1,
   C4_delay_curve.2.2 0 1 (le_refl 0) (by norm_num) (le_refl 1)⟩

/-! ## Claim C6 -/

/-- Claim C6: on the tunnel row (row 11), and only there, moving left off
column 0 resolves to column COLS-1 on the same row and moving right off
column COLS-1 resolves to column 0 - for the shared wrap rule, for the
player move, and for the cat's neighbor generation; on every other row an
off-grid candidate is simply invalid: the player move is a complete no-op
and neighbor generation never yields an off-grid tile. -/
theorem C6_tunnel_wrap :
    wrapTunnel (0 - 1) TUNNEL_ROW_INDEX = (COLS - 1, TUNNEL_ROW_INDEX) ∧
    wrapTunnel ((COLS - 1) + 1) TUNNEL_ROW_INDEX = (0, TUNNEL_ROW_INDEX) ∧
    (∀ x y : ℤ, y ≠ TUNNEL_ROW_INDEX → wrapTunnel x y = (x, y)) ∧
    (∀ (s : GameState) (x y : ℤ), y ≠ TUNNEL_ROW_INDEX → (x < 0 ∨ COLS ≤ x) →
      processPlayerMove x y s = (s, none)) ∧
    (∀ (m : Maze) (p q : Pos), q ∈ nbrs m p →
      0 ≤ q.1 ∧ q.1 < COLS ∧ 0 ≤ q.2 ∧ q.2 < ROWS) ∧
    ((COLS - 1, TUNNEL_ROW_INDEX) ∈ candidates (0, TUNNEL_ROW_INDEX) ∧
      (0, TUNNEL_ROW_INDEX) ∈ candidates (COLS - 1, TUNNEL_ROW_INDEX)) ∧
    (∀ s : GameState, isPathAt s.maze (COLS - 1, TUNNEL_ROW_INDEX) →
      (processPlayerMove (0 - 1) TUNNEL_ROW_INDEX s).1.playerX = COLS - 1 ∧
      (processPlayerMove (0 - 1) TUNNEL_ROW_INDEX s).1.playerY = TUNNEL_ROW_INDEX) ∧
    (∀ s : GameState, isPathAt s.maze (0, TUNNEL_ROW_INDEX) →
      (processPlayerMove ((COLS - 1) + 1) TUNNEL_ROW_INDEX s).1.playerX = 0 ∧
      (processPlayerMove ((COLS - 1) + 1) TUNNEL_ROW_INDEX s).1.playerY =
        TUNNEL_ROW_INDEX) := by
  refine ⟨by decide, by decide, fun x y hy => wrapTunnel_off_row hy, ?_, ?_, ?_, ?_, ?_⟩
  · intro s x y hy hx
    apply processPlayerMove_rejected
    rw [wrapTunnel_off_row hy]
    intro hp
    rcases hx with hx | hx
    · exact absurd hp.1 (by simpa using hx)
    · exact absurd hp.2.1 (by simp [not_lt, hx])
  · exact fun m p q h => nbrs_in_grid h
  · exact ⟨by decide, by decide⟩
  · intro s hs
    have hw : wrapTunnel (0 - 1) TUNNEL_ROW_INDEX = (COLS - 1, TUNNEL_ROW_INDEX) := by decide
    have := @processPlayerMove_playerPos s (0 - 1) TUNNEL_ROW_INDEX
      (by rw [hw]; exact hs)
    rw [hw] at this
    exact this
  · intro s hs
    have hw : wrapTunnel ((COLS - 1) + 1) TUNNEL_ROW_INDEX = (0, TUNNEL_ROW_INDEX) := by decide
    have := @processPlayerMove_playerPos s ((COLS - 1) + 1) TUNNEL_ROW_INDEX
      (by rw [hw]; exact hs)
    rw [hw] at this
    exact this

/-- Witness for C6: a rejected off-grid move on row 5, an in-grid neighbor,
and the leftward tunnel move from column 0 of layout1. -/
theorem C6_witness :
    (5 : ℤ) ≠ TUNNEL_ROW_INDEX ∧
    processPlayerMove (-1) 5 sampleState = (sampleState, none) ∧
    (1, 2) ∈ nbrs sampleState.maze (1, 1) ∧
    (0 ≤ (1 : ℤ) ∧ (1 : ℤ) < COLS ∧ 0 ≤ (2 : ℤ) ∧ (2 : ℤ) < ROWS) ∧
    isPathAt sampleState.maze (COLS - 1, TUNNEL_ROW_INDEX) ∧
    (processPlayerMove (0 - 1) TUNNEL_ROW_INDEX sampleState).1.playerX = COLS - 1 :=
  ⟨by decide,
   C6_tunnel_wrap.2.2.2.1 sampleState (-1) 5 (by decide) (Or.inl (by decide)),
   by decide,
   C6_tunnel_wrap.2.2.2.2.1 sampleState.maze (1, 1) (1, 2) (by decide),
   by decide,
   (C6_tunnel_wrap.2.2.2.2.2.2.1 sampleState (by decide)).1⟩

/-! ## moveCat field facts -/

/-- moveCat never touches the level, the player position, or the maze, and
either leaves state and scores alone or has put the cat onto the player. -/
theorem moveCat_cases (s : GameState) :
    (moveCat s).currentLevel = s.currentLevel ∧ (moveCat s).playerX = s.playerX ∧
    (moveCat s).playerY = s.playerY ∧ (moveCat s).maze = s.maze ∧
    (((moveCat s).currentGameState = s.currentGameState ∧ (moveCat s).score = s.score ∧
        (moveCat s).totalScore = s.totalScore) ∨
      ((moveCat s).catX, (moveCat s).catY) = (s.playerX, s.playerY)) := by
  unfold moveCat
  cases hb : bfsLoop s.maze (s.playerX, s.playerY)
      bfsFuel ⟨[(s.catX, s.catY)], [(s.catX, s.catY)], []⟩ with
  | none => simp
  | some par =>
      dsimp only
      split
      · rename_i hcap
        refine ⟨rfl, rfl, rfl, rfl, Or.inr ?_⟩
        simp only [Prod.mk.injEq]
        exact ⟨hcap.1, hcap.2.1⟩
      · exact ⟨rfl, rfl, rfl, rfl, Or.inl ⟨rfl, rfl, rfl⟩⟩

/-- The four candidate cells around the cat start cell. -/
theorem candidates_cat_start :
    candidates (CAT_START_X, CAT_START_Y) = [(11, 10), (11, 12), (10, 11), (12, 11)] := by
  decide

/-- From the cat start cell no single step reaches the player start cell. -/
theorem nbrs_cat_start_ne_player_start {m : Maze} {q : Pos}
    (h : q ∈ nbrs m (CAT_START_X, CAT_START_Y)) : q ≠ (PLAYER_START_X, PLAYER_START_Y) := by
  have hc : q ∈ candidates (CAT_START_X, CAT_START_Y) := List.mem_of_mem_filter h
  rw [candidates_cat_start] at hc
  simp only [List.mem_cons, List.not_mem_nil, or_false] at hc
  rcases hc with rfl | rfl | rfl | rfl <;> decide

/-! ## catTimer dispatch facts -/

/-- While the slow effect is active the tick performs no state change at all
(the cat step is skipped entirely). -/
theorem catTimer_slowed_skips (s : GameState) (v : ℤ) (h : s.isCatSlowed = true) :
    (catTimer v s).1 = s := by
  unfold catTimer
  split
  · rfl
  · split
    · simp [h]
    · rfl

/-- A live tick (fresh epoch, playing, timer active, not slowed) performs
exactly one moveCat and reschedules with the post-move delay and epoch. -/
theorem catTimer_live (s : GameState) (v : ℤ)
    (hps : s.currentGameState = GState.PLAYING) (ht : s.timerActive = true)
    (hv : v = s.resetIdentifier) (hsl : s.isCatSlowed = false) :
    catTimer v s =
      (moveCat s,
       some (Sched.catTick (moveCat s).currentCatDelay (moveCat s).resetIdentifier)) := by
  unfold catTimer
  rw [if_neg (by simp [hv]), if_pos ⟨hps, ht⟩]
  simp [hsl]

/-- When the queue starts at the player the BFS answers immediately. -/
theorem bfsLoop_found_at_start (m : Maze) (player : Pos) (vis : List Pos)
    (par : List (Pos × Pos)) (rest : List Pos) :
    bfsLoop m player bfsFuel ⟨player :: rest, vis, par⟩ = some par := by
  rw [show bfsFuel = 529 + 1 from rfl, bfsLoop]
  dsimp only
  rw [if_pos rfl]

/-- With the player in PLAYING, moveCat ends in GAME_OVER exactly when the
backtracked step (moveCatPos) lands the cat on the player. -/
theorem moveCat_gameOver_iff (s : GameState)
    (hps : s.currentGameState = GState.PLAYING) :
    (moveCat s).currentGameState = GState.GAME_OVER ↔
      moveCatPos s.maze (s.catX, s.catY) (s.playerX, s.playerY) =
        (s.playerX, s.playerY) := by
  unfold moveCat moveCatPos
  cases hb : bfsLoop s.maze (s.playerX, s.playerY)
      bfsFuel ⟨[(s.catX, s.catY)], [(s.catX, s.catY)], []⟩ with
  | none =>
      dsimp only
      constructor
      · intro h
        rw [hps] at h
        cases h
      · intro h
        rw [h] at hb
        rw [bfsLoop_found_at_start] at hb
        cases hb
  | some par =>
      dsimp only
      cases hbt : backtrack par (s.catX, s.catY) bfsFuel (s.playerX, s.playerY) with
      | none =>
          dsimp only
          split
          · rename_i hcap
            constructor
            · intro _
              exact Prod.ext hcap.1 hcap.2.1
            · intro _
              rfl
          · rename_i hcap
            constructor
            · intro h
              rw [hps] at h
              cases h
            · intro h
              rw [Prod.mk.injEq] at h
              exact absurd ⟨h.1, h.2, hps⟩ hcap
      | some nxt =>
          dsimp only
          split
          · rename_i hcap
            constructor
            · intro _
              exact Prod.ext hcap.1 hcap.2.1
            · intro _
              rfl
          · rename_i hcap
            constructor
            · intro h
              rw [hps] at h
              cases h
            · intro h
              rw [Prod.mk.injEq] at h
              exact absurd ⟨h.1, h.2, hps⟩ hcap

/-- processPlayerMove can only keep the state or raise one of the two level
completion states; it never raises GAME_OVER itself. -/
theorem processPlayerMove_state (s : GameState) (nx ny : ℤ) :
    (processPlayerMove nx ny s).1.currentGameState = s.currentGameState ∨
    (processPlayerMove nx ny s).1.currentGameState = GState.GAME_WON_LEVEL ∨
    (processPlayerMove nx ny s).1.currentGameState = GState.GAME_WON_FINAL := by
  by_cases h : isPathAt s.maze (wrapTunnel nx ny)
  · unfold processPlayerMove
    rw [if_pos h]
    dsimp only
    split
    · split <;> split
      all_goals
        first
          | (rcases (nextLevel_fields _).2.2.2.2.2.2 with h1 | h1
             · exact Or.inr (Or.inr h1)
             · exact Or.inr (Or.inl h1))
          | (left; rw [(powerupPhase_fields _).2.2.2.2.2.2.2.1])
    · left
      rw [(powerupPhase_fields _).2.2.2.2.2.2.2.1]
  · rw [processPlayerMove_rejected h]
    left
    rfl

/-! ## Claim C10 -/

/-- Claim C10: a player move is never the event that signals Caught: in the
PLAYING state processPlayerMove never yields GAME_OVER (even when the player
steps onto the cat); while the slow effect is active a cat tick changes
nothing at all (the cat step is skipped); and on a live tick with the slow
effect inactive the tick is exactly one moveCat, which signals GAME_OVER
precisely when the backtracked step lands the cat on the player. -/
theorem C10_caught_only_in_moveCat :
    (∀ (s : GameState) (nx ny : ℤ), s.currentGameState = GState.PLAYING →
        (processPlayerMove nx ny s).1.currentGameState ≠ GState.GAME_OVER) ∧
    (∀ (s : GameState) (v : ℤ), s.isCatSlowed = true → (catTimer v s).1 = s) ∧
    (∀ (s : GameState) (v : ℤ), s.currentGameState = GState.PLAYING →
        s.timerActive = true → v = s.resetIdentifier → s.isCatSlowed = false →
        (catTimer v s).1 = moveCat s ∧
        ((moveCat s).currentGameState = GState.GAME_OVER ↔
          moveCatPos s.maze (s.catX, s.catY) (s.playerX, s.playerY) =
            (s.playerX, s.playerY))) := by
  refine ⟨?_, ?_, ?_⟩
  · intro s nx ny hps
    rcases processPlayerMove_state s nx ny with h | h | h <;> rw [h]
    · rw [hps]
      decide
    · decide
    · decide
  · exact fun s v h => catTimer_slowed_skips s v h
  · intro s v hps ht hv hsl
    constructor
    · rw [catTimer_live s v hps ht hv hsl]
    · exact moveCat_gameOver_iff s hps

/-- A sample state with the slow effect active. -/
def sampleSlowState : GameState :=
  { sampleState with isCatSlowed := true, catSlowDurationTimer := 5000,
                     currentCatDelay := 450 }

/-- Witness for C10: a player move onto the cat tile keeps PLAYING; a slowed
tick is skipped; a live tick is one moveCat. -/
theorem C10_witness :
    sampleState.currentGameState = GState.PLAYING ∧
    (processPlayerMove 1 2 sampleState).1.currentGameState ≠ GState.GAME_OVER ∧
    sampleSlowState.isCatSlowed = true ∧
    (catTimer 1 sampleSlowState).1 = sampleSlowState ∧
    (catTimer 1 sampleState).1 = moveCat sampleState :=
  ⟨rfl, C10_caught_only_in_moveCat.1 sampleState 1 2 rfl, rfl,
   C10_caught_only_in_moveCat.2.1 sampleSlowState 1 rfl,
   (C10_caught_only_in_moveCat.2.2 sampleState 1 rfl rfl rfl rfl).1⟩

/-! ## resetGame facts and claim C2 -/

/-- Right after a level initialization the single synchronous moveCat cannot
catch, because the cat start cell is not the player start cell nor adjacent
to it; state, scores and level survive the move. -/
theorem moveCat_after_init_fields (t : GameState)
    (hpx : t.playerX = PLAYER_START_X) (hpy : t.playerY = PLAYER_START_Y)
    (hcx : t.catX = CAT_START_X) (hcy : t.catY = CAT_START_Y) :
    (moveCat t).currentGameState = t.currentGameState ∧
    (moveCat t).score = t.score ∧ (moveCat t).totalScore = t.totalScore ∧
    (moveCat t).currentLevel = t.currentLevel := by
  have hstep := moveCat_cat_step t
  have hcases := moveCat_cases t
  rcases hcases.2.2.2.2 with h | h
  · exact ⟨h.1, h.2.1, h.2.2, hcases.1⟩
  · exfalso
    rw [hpx, hpy] at h
    rw [hcx, hcy] at hstep
    rcases hstep with h2 | h2
    · rw [h] at h2
      exact absurd h2 (by decide)
    · rw [h] at h2
      exact nbrs_cat_start_ne_player_start h2 rfl

theorem initLevelData_fields (s : GameState) :
    (initLevelData s).currentGameState = s.currentGameState ∧
    (initLevelData s).currentLevel = s.currentLevel ∧
    (initLevelData s).totalScore = s.totalScore ∧
    (initLevelData s).score = 0 ∧
    (initLevelData s).playerX = PLAYER_START_X ∧
    (initLevelData s).playerY = PLAYER_START_Y ∧
    (initLevelData s).catX = CAT_START_X ∧
    (initLevelData s).catY = CAT_START_Y ∧
    (initLevelData s).isCatSlowed = false ∧
    (initLevelData s).timerActive = s.timerActive ∧
    (initLevelData s).resetIdentifier = s.resetIdentifier := by
  unfold initLevelData
  exact ⟨rfl, rfl, rfl, rfl, rfl, rfl, rfl, rfl, rfl, rfl, rfl⟩

theorem resetState_fields (s : GameState) :
    (resetState s).currentGameState = GState.PLAYING ∧
    (resetState s).timerActive = true ∧
    (resetState s).isCatSlowed = false ∧
    (resetState s).playerX = PLAYER_START_X ∧
    (resetState s).playerY = PLAYER_START_Y ∧
    (resetState s).catX = CAT_START_X ∧
    (resetState s).catY = CAT_START_Y ∧
    (resetState s).currentLevel = 1 ∧
    (resetState s).score = 0 ∧
    (resetState s).totalScore = 0 := by
  have h := initLevelData_fields
    { resetInner s with maze := initMaze (resetInner s).currentLevel }
  exact ⟨rfl, rfl, h.2.2.2.2.2.2.2.2.1, h.2.2.2.2.1, h.2.2.2.2.2.1,
    h.2.2.2.2.2.2.1, h.2.2.2.2.2.2.2.1, h.2.1.trans rfl, h.2.2.2.1,
    h.2.2.1.trans rfl⟩

theorem resetGame_eq (s : GameState) :
    resetGame s = catTimer (resetState s).resetIdentifier (resetState s) := rfl

/-- resetGame always lands in PLAYING at level 1 with both scores zero. -/
theorem resetGame_fields (s : GameState) :
    (resetGame s).1.currentGameState = GState.PLAYING ∧
    (resetGame s).1.currentLevel = 1 ∧
    (resetGame s).1.score = 0 ∧
    (resetGame s).1.totalScore = 0 := by
  have hb := resetState_fields s
  rw [resetGame_eq, catTimer_live _ _ hb.1 hb.2.1 rfl hb.2.2.1]
  have hm := moveCat_after_init_fields (resetState s) hb.2.2.2.1 hb.2.2.2.2.1
    hb.2.2.2.2.2.1 hb.2.2.2.2.2.2.1
  exact ⟨hm.1.trans hb.1, hm.2.2.2.trans hb.2.2.2.2.2.2.2.1,
    hm.2.1.trans hb.2.2.2.2.2.2.2.2.1, hm.2.2.1.trans hb.2.2.2.2.2.2.2.2.2⟩

/-- Claim C2, amended: in the GameOver state the reset key returns the game
to Playing at level 1 with per-level and total score zero; in the
GameWonFinal state the reset key is ignored: the state comes back unchanged
and nothing is scheduled (only quit leaves that screen). -/
theorem C2_reset_outcomes :
    (∀ s : GameState, s.currentGameState = GState.GAME_OVER →
      ((keyboard 114 s).1.currentGameState = GState.PLAYING ∧
       (keyboard 114 s).1.currentLevel = 1 ∧
       (keyboard 114 s).1.score = 0 ∧
       (keyboard 114 s).1.totalScore = 0)) ∧
    (∀ s : GameState, s.currentGameState = GState.GAME_WON_FINAL →
      keyboard 114 s = (s, none)) := by
  constructor
  · intro s h
    have hk : keyboard 114 s = resetGame s := by
      unfold keyboard
      rw [h]
      simp
    rw [hk]
    exact resetGame_fields s
  · intro s h
    unfold keyboard
    rw [h]
    simp

/-- A concrete state on the final win screen. -/
def gameWonFinalState : GameState :=
  { sampleState with currentGameState := GState.GAME_WON_FINAL }

/-- A concrete state on the game-over screen. -/
def gameOverState : GameState :=
  { sampleState with currentGameState := GState.GAME_OVER }

/-- Counterexample to claim C2 as stated: in the GameWonFinal state the
reset key 'r' (ASCII 114) does not return the game to Playing; the keyboard
handler explicitly excludes GAME_WON_FINAL from the reset branch, so the
state comes back unchanged. -/
theorem C2_counterexample :
    gameWonFinalState.currentGameState = GState.GAME_WON_FINAL ∧
    keyboard 114 gameWonFinalState = (gameWonFinalState, none) ∧
    (keyboard 114 gameWonFinalState).1.currentGameState ≠ GState.PLAYING := by
  have hk : keyboard 114 gameWonFinalState = (gameWonFinalState, none) := by
    have h : gameWonFinalState.currentGameState = GState.GAME_WON_FINAL := rfl
    unfold keyboard
    rw [h]
    simp
  refine ⟨rfl, hk, ?_⟩
  rw [hk]
  decide

/-- Witness for the amended C2 at two concrete states. -/
theorem C2_witness :
    gameOverState.currentGameState = GState.GAME_OVER ∧
    (keyboard 114 gameOverState).1.currentGameState = GState.PLAYING ∧
    (keyboard 114 gameOverState).1.currentLevel = 1 ∧
    gameWonFinalState.currentGameState = GState.GAME_WON_FINAL ∧
    keyboard 114 gameWonFinalState = (gameWonFinalState, none) :=
  ⟨rfl, (C2_reset_outcomes.1 gameOverState rfl).1,
   (C2_reset_outcomes.1 gameOverState rfl).2.1, rfl,
   C2_reset_outcomes.2 gameWonFinalState rfl⟩

/-! ## idle facts and claim C5 -/

/-- Folding idle frame ticks over a list of elapsed times, oldest first. -/
def foldIdle (ds : List ℤ) (s : GameState) : GameState :=
  ds.foldl (fun t d => idle d t) s

theorem foldIdle_cons (d : ℤ) (ds : List ℤ) (s : GameState) :
    foldIdle (d :: ds) s = foldIdle ds (idle d s) := rfl

/-- With the slow effect inactive a frame tick changes nothing modelled. -/
theorem idle_not_slowed {s : GameState} (h : s.isCatSlowed = false) (d : ℤ) :
    idle d s = s := by
  unfold idle
  split
  · rw [if_neg]
    intro hc
    rw [h] at hc
    exact absurd hc.2.1 (by decide)
  · rfl

theorem foldIdle_not_slowed {s : GameState} (h : s.isCatSlowed = false) (ds : List ℤ) :
    foldIdle ds s = s := by
  induction ds with
  | nil => rfl
  | cons d ds ih => rw [foldIdle_cons, idle_not_slowed h]; exact ih

/-- The expiring frame tick: effect off, delay recomputed from the current
collected fraction. -/
theorem idle_slowed_expire {s : GameState} (d : ℤ) (h0 : 0 < d)
    (hps : s.currentGameState = GState.PLAYING) (hsl : s.isCatSlowed = true)
    (hc : 0 < s.initialCheeseCount) (ht : s.catSlowDurationTimer - d ≤ 0) :
    idle d s = { s with catSlowDurationTimer := s.catSlowDurationTimer - d,
                        isCatSlowed := false,
                        currentCatDelay :=
                          delayFor ((s.score : ℚ) / (s.initialCheeseCount : ℚ)) } := by
  unfold idle
  rw [if_pos h0, if_pos ⟨Or.inl hps, hsl, hps⟩]
  rw [if_pos ht, if_pos hc]

/-- A frame tick that does not yet expire the effect only ages it. -/
theorem idle_slowed_tick {s : GameState} (d : ℤ) (h0 : 0 < d)
    (hps : s.currentGameState = GState.PLAYING) (hsl : s.isCatSlowed = true)
    (ht : ¬ s.catSlowDurationTimer - d ≤ 0) :
    idle d s = { s with catSlowDurationTimer := s.catSlowDurationTimer - d } := by
  unfold idle
  rw [if_pos h0, if_pos ⟨Or.inl hps, hsl, hps⟩]
  rw [if_neg ht]

/-- Claim C5: with the slow effect active and cheese placed, when frame
ticks of positive elapsed time accumulate past the remaining duration (and
no further cheese is collected - idle never touches the score), the tick
interval ends up equal to delayFor of the current collected fraction
score / initialCheeseCount, not the saved pre-effect interval; the effect
is off and score and cheese count are untouched. -/
theorem C5_slow_expiry_recompute (s : GameState) (ds : List ℤ)
    (hps : s.currentGameState = GState.PLAYING)
    (hsl : s.isCatSlowed = true)
    (hc : 0 < s.initialCheeseCount)
    (ht0 : 0 ≤ s.catSlowDurationTimer)
    (hpos : ∀ d ∈ ds, 0 < d)
    (hsum : s.catSlowDurationTimer < ds.sum) :
    (foldIdle ds s).currentCatDelay =
      delayFor ((s.score : ℚ) / (s.initialCheeseCount : ℚ)) ∧
    (foldIdle ds s).isCatSlowed = false ∧
    (foldIdle ds s).score = s.score ∧
    (foldIdle ds s).initialCheeseCount = s.initialCheeseCount := by
  induction ds generalizing s with
  | nil =>
      exfalso
      simp only [List.sum_nil] at hsum
      omega
  | cons d ds ih =>
      have hd : 0 < d := hpos d (List.mem_cons_self d ds)
      rw [foldIdle_cons]
      by_cases hexp : s.catSlowDurationTimer - d ≤ 0
      · rw [idle_slowed_expire d hd hps hsl hc hexp, foldIdle_not_slowed rfl]
        exact ⟨rfl, rfl, rfl, rfl⟩
      · rw [idle_slowed_tick d hd hps hsl hexp]
        have hsum2 : ({ s with catSlowDurationTimer :=
            s.catSlowDurationTimer - d } : GameState).catSlowDurationTimer <
            ds.sum := by
          simp only [List.sum_cons] at hsum
          dsimp only
          omega
        exact ih _ hps hsl hc (by dsimp only; omega)
          (fun e he => hpos e (List.mem_cons_of_mem d he)) hsum2

/-- Witness for C5: one 6000 ms frame tick on a live slow effect of 5000 ms. -/
theorem C5_witness :
    sampleSlowState.currentGameState = GState.PLAYING ∧
    sampleSlowState.isCatSlowed = true ∧
    (0 : ℤ) < sampleSlowState.initialCheeseCount ∧
    (0 : ℤ) ≤ sampleSlowState.catSlowDurationTimer ∧
    (∀ d ∈ [(6000 : ℤ)], 0 < d) ∧
    sampleSlowState.catSlowDurationTimer < [(6000 : ℤ)].sum ∧
    (foldIdle [6000] sampleSlowState).currentCatDelay =
      delayFor ((sampleSlowState.score : ℚ) / (sampleSlowState.initialCheeseCount : ℚ)) :=
  ⟨rfl, rfl, by decide, by decide, by decide, by decide,
   (C5_slow_expiry_recompute sampleSlowState [6000] rfl rfl (by decide) (by decide)
     (by decide) (by decide)).1⟩

/-! ## Level population facts and claim C7 -/

/-- What the cheese loop guarantees of every accepted cell: in grid, a path
tile, and distinct from both start cells. -/
def goodCell (m : Maze) (c : ℤ × ℤ) : Prop :=
  0 ≤ c.1 ∧ c.1 < COLS ∧ 0 ≤ c.2 ∧ c.2 < ROWS ∧ m c.2 c.1 = TILE_PATH ∧
  c ≠ (PLAYER_START_X, PLAYER_START_Y) ∧ c ≠ (CAT_START_X, CAT_START_Y)

/-- A draw that passes the guard of either sampling loop is a good cell. -/
theorem goodCell_of_draw (m : Maze) (a b : ℕ)
    (h : m ((b % 23 : ℕ) : ℤ) ((a % 23 : ℕ) : ℤ) = TILE_PATH ∧
      ¬(((a % 23 : ℕ) : ℤ) = PLAYER_START_X ∧ ((b % 23 : ℕ) : ℤ) = PLAYER_START_Y) ∧
      ¬(((a % 23 : ℕ) : ℤ) = CAT_START_X ∧ ((b % 23 : ℕ) : ℤ) = CAT_START_Y)) :
    goodCell m (((a % 23 : ℕ) : ℤ), ((b % 23 : ℕ) : ℤ)) := by
  have ha : a % 23 < 23 := Nat.mod_lt a (by norm_num)
  have hb : b % 23 < 23 := Nat.mod_lt b (by norm_num)
  refine ⟨Int.ofNat_nonneg _, ?_, Int.ofNat_nonneg _, ?_, h.1, ?_, ?_⟩
  · show ((a % 23 : ℕ) : ℤ) < 23
    exact_mod_cast ha
  · show ((b % 23 : ℕ) : ℤ) < 23
    exact_mod_cast hb
  · intro hc
    rw [Prod.mk.injEq] at hc
    exact h.2.1 hc
  · intro hc
    rw [Prod.mk.injEq] at hc
    exact h.2.2 hc

theorem cheeseLoop_ok (m : Maze) (rand : ℕ → ℕ) :
    ∀ (fuel i : ℕ) (acc : List (ℤ × ℤ)),
      acc.Nodup → (∀ c ∈ acc, goodCell m c) → acc.length ≤ NUM_CHEESE_TO_PLACE →
      ((cheeseLoop m rand fuel i acc).1.Nodup ∧
       (∀ c ∈ (cheeseLoop m rand fuel i acc).1, goodCell m c) ∧
       (cheeseLoop m rand fuel i acc).1.length ≤ NUM_CHEESE_TO_PLACE) := by
  intro fuel
  induction fuel with
  | zero =>
      intro i acc h1 h2 h3
      exact ⟨h1, h2, h3⟩
  | succ fuel ih =>
      intro i acc h1 h2 h3
      rw [cheeseLoop]
      by_cases hlen : acc.length < NUM_CHEESE_TO_PLACE
      · rw [if_pos hlen]
        dsimp only
        by_cases hcond : m ((rand (i + 1) % 23 : ℕ) : ℤ) ((rand i % 23 : ℕ) : ℤ) =
            TILE_PATH ∧
            ¬(((rand i % 23 : ℕ) : ℤ) = PLAYER_START_X ∧
              ((rand (i + 1) % 23 : ℕ) : ℤ) = PLAYER_START_Y) ∧
            ¬(((rand i % 23 : ℕ) : ℤ) = CAT_START_X ∧
              ((rand (i + 1) % 23 : ℕ) : ℤ) = CAT_START_Y)
        · rw [if_pos hcond]
          by_cases hmem : (((rand i % 23 : ℕ) : ℤ), ((rand (i + 1) % 23 : ℕ) : ℤ)) ∈ acc
          · rw [if_pos hmem]
            exact ih (i + 2) acc h1 h2 h3
          · rw [if_neg hmem]
            refine ih (i + 2) _ ?_ ?_ ?_
            · refine List.nodup_append.mpr ⟨h1, List.nodup_singleton _, ?_⟩
              intro a ha hb
              rw [List.mem_singleton.mp hb] at ha
              exact hmem ha
            · intro c hc
              rcases List.mem_append.mp hc with hc | hc
              · exact h2 c hc
              · rw [List.mem_singleton.mp hc]
                exact goodCell_of_draw m (rand i) (rand (i + 1)) hcond
            · rw [List.length_append, List.length_singleton]
              omega
        · rw [if_neg hcond]
          exact ih (i + 2) acc h1 h2 h3
      · rw [if_neg hlen]
        exact ⟨h1, h2, h3⟩

/-- What the power-up loop guarantees of every accepted entry: a good cell,
not on a cheese cell, and of the slow type. -/
def goodPowerup (m : Maze) (cheese : List (ℤ × ℤ)) (p : Powerup) : Prop :=
  goodCell m (p.x, p.y) ∧ (p.x, p.y) ∉ cheese ∧ p.type = TILE_SLOW_POWERUP

theorem powerupLoop_ok (m : Maze) (rand : ℕ → ℕ) (cheese : List (ℤ × ℤ)) :
    ∀ (fuel i : ℕ) (acc : List Powerup),
      (acc.map (fun p => (p.x, p.y))).Nodup →
      (∀ p ∈ acc, goodPowerup m cheese p) →
      acc.length ≤ NUM_POWERUPS_PER_LEVEL →
      (((powerupLoop m rand cheese fuel i acc).1.map (fun p => (p.x, p.y))).Nodup ∧
       (∀ p ∈ (powerupLoop m rand cheese fuel i acc).1, goodPowerup m cheese p) ∧
       (powerupLoop m rand cheese fuel i acc).1.length ≤ NUM_POWERUPS_PER_LEVEL) := by
  intro fuel
  induction fuel with
  | zero =>
      intro i acc h1 h2 h3
      exact ⟨h1, h2, h3⟩
  | succ fuel ih =>
      intro i acc h1 h2 h3
      rw [powerupLoop]
      by_cases hlen : acc.length < NUM_POWERUPS_PER_LEVEL
      · rw [if_pos hlen]
        dsimp only
        by_cases hcond : m ((rand (i + 1) % 23 : ℕ) : ℤ) ((rand i % 23 : ℕ) : ℤ) =
            TILE_PATH ∧
            ¬(((rand i % 23 : ℕ) : ℤ) = PLAYER_START_X ∧
              ((rand (i + 1) % 23 : ℕ) : ℤ) = PLAYER_START_Y) ∧
            ¬(((rand i % 23 : ℕ) : ℤ) = CAT_START_X ∧
              ((rand (i + 1) % 23 : ℕ) : ℤ) = CAT_START_Y)
        · rw [if_pos hcond]
          by_cases hmem : (((rand i % 23 : ℕ) : ℤ), ((rand (i + 1) % 23 : ℕ) : ℤ)) ∈ cheese ∨
              acc.any (fun p => p.x = ((rand i % 23 : ℕ) : ℤ) ∧
                p.y = ((rand (i + 1) % 23 : ℕ) : ℤ)) = true
          · rw [if_pos hmem]
            exact ih (i + 2) acc h1 h2 h3
          · rw [if_neg hmem]
            push_neg at hmem
            refine ih (i + 2) _ ?_ ?_ ?_
            · rw [List.map_append, List.nodup_append]
              refine ⟨h1, List.nodup_singleton _, ?_⟩
              intro a ha hb
              simp only [List.map_cons, List.map_nil, List.mem_singleton] at hb
              rcases List.mem_map.mp ha with ⟨p, hp, hpa⟩
              have hall : ¬(p.x = ((rand i % 23 : ℕ) : ℤ) ∧
                  p.y = ((rand (i + 1) % 23 : ℕ) : ℤ)) := by
                intro hqc
                exact hmem.2 (List.any_eq_true.mpr ⟨p, hp, decide_eq_true hqc⟩)
              rw [hb] at hpa
              exact hall ⟨congrArg Prod.fst hpa, congrArg Prod.snd hpa⟩
            · intro p hp
              rcases List.mem_append.mp hp with hp | hp
              · exact h2 p hp
              · rw [List.mem_singleton.mp hp]
                exact ⟨goodCell_of_draw m (rand i) (rand (i + 1)) hcond, hmem.1, rfl⟩
            · rw [List.length_append, List.length_singleton]
              omega
        · rw [if_neg hcond]
          exact ih (i + 2) acc h1 h2 h3
      · rw [if_neg hlen]
        exact ⟨h1, h2, h3⟩

/-- Claim C7: for every maze grid and every random draw sequence,
initLevelData places no two items (cheese or power-up) on one tile, never
places an item on the player or cat start tile, places every item on a Path
tile of the grid, and exhausting the attempt budget only yields smaller item
counts: the function is total, the counts never exceed the targets, and no
error is signalled (the warnings of lines 293-296 are console output only). -/
theorem C7_populate_distinct_and_safe (s : GameState) :
    (initLevelData s).cheeseLocations.Nodup ∧
    (((initLevelData s).powerupLocations.map (fun p => (p.x, p.y))).Nodup ∧
     ∀ p ∈ (initLevelData s).powerupLocations,
       (p.x, p.y) ∉ (initLevelData s).cheeseLocations) ∧
    (∀ c ∈ (initLevelData s).cheeseLocations,
       s.maze c.2 c.1 = TILE_PATH ∧ 0 ≤ c.1 ∧ c.1 < COLS ∧ 0 ≤ c.2 ∧ c.2 < ROWS ∧
       c ≠ (PLAYER_START_X, PLAYER_START_Y) ∧ c ≠ (CAT_START_X, CAT_START_Y)) ∧
    (∀ p ∈ (initLevelData s).powerupLocations,
       s.maze p.y p.x = TILE_PATH ∧
       (p.x, p.y) ≠ (PLAYER_START_X, PLAYER_START_Y) ∧
       (p.x, p.y) ≠ (CAT_START_X, CAT_START_Y) ∧ p.type = TILE_SLOW_POWERUP) ∧
    (initLevelData s).cheeseLocations.length ≤ NUM_CHEESE_TO_PLACE ∧
    (initLevelData s).powerupLocations.length ≤ NUM_POWERUPS_PER_LEVEL := by
  have hch : (initLevelData s).cheeseLocations =
      (cheeseLoop s.maze s.rand maxAttempts s.rngIdx []).1 := rfl
  have hpw : (initLevelData s).powerupLocations =
      (powerupLoop s.maze s.rand (cheeseLoop s.maze s.rand maxAttempts s.rngIdx []).1
        maxAttempts (cheeseLoop s.maze s.rand maxAttempts s.rngIdx []).2 []).1 := rfl
  have hc := cheeseLoop_ok s.maze s.rand maxAttempts s.rngIdx []
    (List.nodup_nil) (by intro c hc; cases hc) (by norm_num [NUM_CHEESE_TO_PLACE])
  have hp := powerupLoop_ok s.maze s.rand
    (cheeseLoop s.maze s.rand maxAttempts s.rngIdx []).1 maxAttempts
    (cheeseLoop s.maze s.rand maxAttempts s.rngIdx []).2 []
    (by simp) (by intro p hp; cases hp) (by norm_num [NUM_POWERUPS_PER_LEVEL])
  rw [hch, hpw]
  refine ⟨hc.1, ⟨hp.1, fun p hmem => (hp.2.1 p hmem).2.1⟩, ?_, ?_, hc.2.2, hp.2.2⟩
  · intro c hmem
    have hg := hc.2.1 c hmem
    exact ⟨hg.2.2.2.2.1, hg.1, hg.2.1, hg.2.2.1, hg.2.2.2.1, hg.2.2.2.2.2⟩
  · intro p hmem
    have hg := hp.2.1 p hmem
    exact ⟨hg.1.2.2.2.2.1, hg.1.2.2.2.2.2.1, hg.1.2.2.2.2.2.2, hg.2.2⟩

/-- A deterministic draw stream that fills level 1 quickly: twelve distinct
path cells of row 1 for cheese, then one more for the power-up. -/
def sampleRand : ℕ → ℕ := fun i =>
  [2, 1, 3, 1, 5, 1, 6, 1, 7, 1, 8, 1, 9, 1, 10, 1, 11, 1, 12, 1, 13, 1,
   14, 1, 15, 1].getD i 0

/-- The sample state just before population, drawing from sampleRand. -/
def prePopulateState : GameState :=
  { sampleState with rand := sampleRand, rngIdx := 0 }

/-- Witness for C7: with the sampleRand stream the first cheese lands on
(2,1), a path tile of layout1 distinct from both start cells. -/
theorem C7_witness :
    (2, 1) ∈ (initLevelData prePopulateState).cheeseLocations ∧
    prePopulateState.maze 1 2 = TILE_PATH ∧
    ((2 : ℤ), (1 : ℤ)) ≠ (PLAYER_START_X, PLAYER_START_Y) :=
  ⟨by decide,
   ((C7_populate_distinct_and_safe prePopulateState).2.2.1 (2, 1) (by decide)).1,
   ((C7_populate_distinct_and_safe prePopulateState).2.2.1 (2, 1) (by decide)).2.2.2.2.2.1⟩

/-! ## Position invariant and claim C9 -/

/-- Both start cells are path tiles in every maze initMaze can load. -/
theorem isPathAt_start_initMaze (lvl : ℤ) :
    isPathAt (initMaze lvl) (PLAYER_START_X, PLAYER_START_Y) ∧
    isPathAt (initMaze lvl) (CAT_START_X, CAT_START_Y) := by
  unfold initMaze
  split
  · exact ⟨by decide, by decide⟩
  · split
    · exact ⟨by decide, by decide⟩
    · exact ⟨by decide, by decide⟩

theorem initState_proj (lvl : ℤ) (rand : ℕ → ℕ) :
    (initState lvl rand).maze = initMaze lvl ∧
    (initState lvl rand).playerX = PLAYER_START_X ∧
    (initState lvl rand).playerY = PLAYER_START_Y ∧
    (initState lvl rand).catX = CAT_START_X ∧
    (initState lvl rand).catY = CAT_START_Y :=
  ⟨rfl, rfl, rfl, rfl, rfl⟩

/-- A player move never changes the maze or the cat. -/
theorem processPlayerMove_maze_cat (s : GameState) (nx ny : ℤ) :
    (processPlayerMove nx ny s).1.maze = s.maze ∧
    (processPlayerMove nx ny s).1.catX = s.catX ∧
    (processPlayerMove nx ny s).1.catY = s.catY := by
  by_cases h : isPathAt s.maze (wrapTunnel nx ny)
  · unfold processPlayerMove
    rw [if_pos h]
    dsimp only
    split
    · split <;> split
      all_goals
        first
          | exact ⟨(nextLevel_fields _).2.2.2.2.1, (nextLevel_fields _).2.2.1,
              (nextLevel_fields _).2.2.2.1⟩
          | exact ⟨(powerupPhase_fields _).2.2.2.2.1, (powerupPhase_fields _).2.2.1,
              (powerupPhase_fields _).2.2.2.1⟩
    · exact ⟨(powerupPhase_fields _).2.2.2.2.1, (powerupPhase_fields _).2.2.1,
        (powerupPhase_fields _).2.2.2.1⟩
  · rw [processPlayerMove_rejected h]
    exact ⟨rfl, rfl, rfl⟩

/-- The player either stays or lands on the wrap-resolved candidate. -/
theorem processPlayerMove_player_cases (s : GameState) (nx ny : ℤ) :
    ((processPlayerMove nx ny s).1.playerX = s.playerX ∧
     (processPlayerMove nx ny s).1.playerY = s.playerY) ∨
    (isPathAt s.maze (wrapTunnel nx ny) ∧
     (processPlayerMove nx ny s).1.playerX = (wrapTunnel nx ny).1 ∧
     (processPlayerMove nx ny s).1.playerY = (wrapTunnel nx ny).2) := by
  by_cases h : isPathAt s.maze (wrapTunnel nx ny)
  · right
    exact ⟨h, (processPlayerMove_playerPos h).1, (processPlayerMove_playerPos h).2⟩
  · left
    rw [processPlayerMove_rejected h]
    exact ⟨rfl, rfl⟩

/-- Claim C9: in every state reachable from a level initialization by player
moves and cat steps, both the player and the cat stand on Path tiles of the
current maze; in particular their tiles are neither walls nor the
TILE_BLOCKED value 3, so blocked tiles are never entered. -/
theorem C9_positions_on_path (s : GameState) (h : Reach s) :
    isPathAt s.maze (s.playerX, s.playerY) ∧
    isPathAt s.maze (s.catX, s.catY) ∧
    s.maze s.playerY s.playerX ≠ TILE_BLOCKED ∧
    s.maze s.playerY s.playerX ≠ TILE_WALL ∧
    s.maze s.catY s.catX ≠ TILE_BLOCKED ∧
    s.maze s.catY s.catX ≠ TILE_WALL := by
  have hmain : isPathAt s.maze (s.playerX, s.playerY) ∧
      isPathAt s.maze (s.catX, s.catY) := by
    induction h with
    | init lvl rand =>
        have hp := initState_proj lvl rand
        have hs := isPathAt_start_initMaze lvl
        rw [hp.1, hp.2.1, hp.2.2.1, hp.2.2.2.1, hp.2.2.2.2]
        exact hs
    | player nx ny hr ih =>
        rename_i t
        have hmc := processPlayerMove_maze_cat t nx ny
        rw [hmc.1, hmc.2.1, hmc.2.2]
        rcases processPlayerMove_player_cases t nx ny with hp | hp
        · rw [hp.1, hp.2]
          exact ih
        · rw [hp.2.1, hp.2.2]
          exact ⟨hp.1, ih.2⟩
    | cat hr ih =>
        rename_i t
        have hc := moveCat_cases t
        rw [hc.2.2.2.1, hc.2.1, hc.2.2.1]
        refine ⟨ih.1, ?_⟩
        rcases moveCat_cat_step t with hs | hs
        · rw [show ((moveCat t).catX, (moveCat t).catY) = (t.catX, t.catY) from hs]
          exact ih.2
        · exact isPathAt_of_mem_nbrs hs
  have h1 := hmain.1.2.2.2.2
  have h2 := hmain.2.2.2.2.2
  refine ⟨hmain.1, hmain.2, ?_, ?_, ?_, ?_⟩ <;>
    first
      | (rw [h1]; decide)
      | (rw [h2]; decide)

/-- Witness for C9 at the freshly initialized level 1. -/
theorem C9_witness :
    Reach (initState 1 (fun _ => 0)) ∧
    isPathAt (initState 1 (fun _ => 0)).maze
      ((initState 1 (fun _ => 0)).playerX, (initState 1 (fun _ => 0)).playerY) :=
  ⟨Reach.init 1 (fun _ => 0),
   (C9_positions_on_path _ (Reach.init 1 (fun _ => 0))).1⟩

/-! ## BFS shortest-path correctness (claim C1)

The remaining development proves that the BFS of moveCat advances the cat
one step along a shortest path.  The argument is a classical BFS loop
invariant: parent pointers always step the graph distance from the cat down
by exactly one, the queue spans at most two consecutive distance layers in
non-decreasing order, and every processed cell has all neighbors visited. -/

/-- A walk of length n+1 decomposes into a walk of length n and a final
edge. -/
theorem reachB_succ_rev {m : Maze} {n : ℕ} {a c : Pos} :
    reachB m (n + 1) a c = true ↔
      ∃ b, reachB m n a b = true ∧ c ∈ nbrs m b := by
  induction n generalizing a with
  | zero =>
      rw [reachB_succ_iff]
      constructor
      · rintro ⟨b, hb, hr⟩
        rw [reachB_zero_iff] at hr
        exact ⟨a, reachB_self m a, hr ▸ hb⟩
      · rintro ⟨b, hb, hc⟩
        rw [reachB_zero_iff] at hb
        exact ⟨c, hb ▸ hc, reachB_self m c⟩
  | succ k ih =>
      rw [reachB_succ_iff]
      constructor
      · rintro ⟨b, hb, hr⟩
        rcases ih.mp hr with ⟨e, he, hce⟩
        exact ⟨e, reachB_succ_iff.mpr ⟨b, hb, he⟩, hce⟩
      · rintro ⟨b, hb, hc⟩
        rcases reachB_succ_iff.mp hb with ⟨e, he, hr⟩
        exact ⟨e, he, ih.mpr ⟨b, hr, hc⟩⟩

theorem one_le_distN {m : Maze} {a b : Pos} (h : Reachable m a b) (hne : a ≠ b) :
    1 ≤ distN m a b := by
  rcases Nat.eq_zero_or_pos (distN m a b) with h0 | h1
  · exact absurd ((distN_eq_zero_iff h).mp h0) hne
  · exact h1

/-- The distance to a neighbor of a visited cell exceeds the cell by at
most one. -/
theorem distN_nbr_le {m : Maze} {cat u c : Pos} (hu : Reachable m cat u)
    (hc : c ∈ nbrs m u) : distN m cat c ≤ distN m cat u + 1 :=
  distN_le (reachB_snoc (reachB_distN hu) hc)

/-- A list without duplicates is no longer than any list containing it. -/
theorem nodup_subset_length_le {α : Type} [DecidableEq α] {l1 l2 : List α}
    (h1 : l1.Nodup) (h2 : ∀ x ∈ l1, x ∈ l2) : l1.length ≤ l2.length := by
  calc l1.length = l1.toFinset.card := (List.toFinset_card_of_nodup h1).symm
    _ ≤ l2.toFinset.card :=
        Finset.card_le_card
          (fun x hx => List.mem_toFinset.mpr (h2 x (List.mem_toFinset.mp hx)))
    _ ≤ l2.length := l2.toFinset_card_le

/-- The 23 x 23 grid as a finite set. -/
def gridFinset : Finset Pos := (Finset.Icc (0 : ℤ) 22) ×ˢ (Finset.Icc (0 : ℤ) 22)

theorem gridFinset_card : gridFinset.card = 529 := by
  rw [gridFinset, Finset.card_product, Int.card_Icc]
  decide

theorem mem_gridFinset_of_isPathAt {m : Maze} {p : Pos} (h : isPathAt m p) :
    p ∈ gridFinset := by
  rw [gridFinset, Finset.mem_product, Finset.mem_Icc, Finset.mem_Icc]
  obtain ⟨h1, h2, h3, h4, _⟩ := h
  refine ⟨⟨h1, ?_⟩, ⟨h3, ?_⟩⟩
  · have : (COLS : ℤ) = 23 := rfl
    omega
  · have : (ROWS : ℤ) = 23 := rfl
    omega

/-- Any duplicate-free list of path cells (the cat cell allowed too) has at
most 529 entries. -/
theorem vis_length_le {m : Maze} {cat : Pos} {vis : List Pos}
    (hcat : isPathAt m cat) (hnd : vis.Nodup)
    (hp : ∀ p ∈ vis, p = cat ∨ isPathAt m p) : vis.length ≤ 529 := by
  have : vis.toFinset.card ≤ gridFinset.card := by
    refine Finset.card_le_card (fun p hpm => ?_)
    rcases hp p (List.mem_toFinset.mp hpm) with h | h
    · exact h ▸ mem_gridFinset_of_isPathAt hcat
    · exact mem_gridFinset_of_isPathAt h
  rw [List.toFinset_card_of_nodup hnd] at this
  rw [gridFinset_card] at this
  exact this

theorem lookupPar_cons_self (par : List (Pos × Pos)) (c u : Pos) :
    lookupPar ((c, u) :: par) c = some u := by
  simp [lookupPar]

theorem lookupPar_cons_ne (par : List (Pos × Pos)) (c u p : Pos) (h : p ≠ c) :
    lookupPar ((c, u) :: par) p = lookupPar par p := by
  have hfalse : ((((c, u) : Pos × Pos).1 == p) : Bool) = false := by
    rw [beq_eq_false_iff_ne]
    exact fun hc => h hc.symm
  unfold lookupPar
  rw [List.find?_cons, hfalse]

/-- The parent-map invariant the BFS maintains: parent pointers exist
exactly away from the cat, point one distance layer down along an edge, and
everything recorded is visited and reachable. -/
structure Core (m : Maze) (cat : Pos) (vis : List Pos)
    (par : List (Pos × Pos)) : Prop where
  nodup : vis.Nodup
  path : ∀ p ∈ vis, p = cat ∨ isPathAt m p
  reach : ∀ p ∈ vis, Reachable m cat p
  cat_vis : cat ∈ vis
  par_cat : lookupPar par cat = none
  par_keys : ∀ p ∈ vis, p ≠ cat → (lookupPar par p).isSome = true
  par_dom : ∀ p u, lookupPar par p = some u → p ∈ vis ∧ p ≠ cat
  par_adj : ∀ p u, lookupPar par p = some u → p ∈ nbrs m u ∧ u ∈ vis
  par_dist : ∀ p u, lookupPar par p = some u →
    distN m cat p = distN m cat u + 1

/-- Backtracking along Core parent pointers from a visited cell c other
than the cat returns the chain cell whose parent is the cat, together with
a walk of length distN - 1 from that cell to c. -/
theorem backtrack_correct {m : Maze} {cat : Pos} {vis : List Pos}
    {par : List (Pos × Pos)} (hc : Core m cat vis par) :
    ∀ (fuel k : ℕ) (c : Pos), distN m cat c = k → k ≤ fuel → c ∈ vis → c ≠ cat →
      ∃ nxt, backtrack par cat fuel c = some nxt ∧
        lookupPar par nxt = some cat ∧
        reachB m (k - 1) nxt c = true := by
  intro fuel
  induction fuel with
  | zero =>
      intro k c hk hkf hcv hne
      have hk0 : k = 0 := Nat.le_zero.mp hkf
      subst hk0
      exact absurd ((distN_eq_zero_iff (hc.reach c hcv)).mp hk).symm hne
  | succ fuel ih =>
      intro k c hk hkf hcv hne
      have hsome := hc.par_keys c hcv hne
      cases hl : lookupPar par c with
      | none => rw [hl] at hsome; cases hsome
      | some v =>
          have hdist := hc.par_dist c v hl
          have hadj := hc.par_adj c v hl
          rw [backtrack, if_neg hne, hl]
          dsimp only
          by_cases hv : v = cat
          · rw [if_pos hv]
            refine ⟨c, rfl, hv ▸ hl, ?_⟩
            have h1 : distN m cat c = 1 := by
              rw [hdist, hv, distN_self]
            have hk1 : k = 1 := by rw [← hk, h1]
            rw [hk1]
            exact reachB_self m c
          · rw [if_neg hv]
            have hvv : v ∈ vis := hadj.2
            have hk1 : 1 ≤ distN m cat v :=
              one_le_distN (hc.reach v hvv) (fun he => hv he.symm)
            have hkv : distN m cat v = k - 1 := by omega
            rcases ih (k - 1) v hkv (by omega) hvv hv with ⟨nxt, hbt, hlk, hwalk⟩
            refine ⟨nxt, hbt, hlk, ?_⟩
            have hsn := reachB_snoc hwalk hadj.1
            have heq : k - 1 - 1 + 1 = k - 1 := by omega
            rw [heq] at hsn
            exact hsn

/-- Along Core parent pointers a visited cell at distance k yields k+1
distinct visited cells (one per layer), bounding the distance by the size
of the visited list. -/
theorem core_chain {m : Maze} {cat : Pos} {vis : List Pos}
    {par : List (Pos × Pos)} (hc : Core m cat vis par) :
    ∀ (k : ℕ) (c : Pos), distN m cat c = k → c ∈ vis →
      ∃ L : List Pos, L.Nodup ∧ L.length = k + 1 ∧ (∀ p ∈ L, p ∈ vis) ∧
        (∀ p ∈ L, distN m cat p ≤ k) := by
  intro k
  induction k with
  | zero =>
      intro c h0 hcv
      refine ⟨[c], List.nodup_singleton c, rfl, ?_, ?_⟩
      · intro p hp
        rw [List.mem_singleton.mp hp]
        exact hcv
      · intro p hp
        rw [List.mem_singleton.mp hp, h0]
  | succ k ih =>
      intro c hk hcv
      have hne : c ≠ cat := by
        intro he
        rw [he, distN_self] at hk
        cases hk
      have hsome := hc.par_keys c hcv hne
      cases hl : lookupPar par c with
      | none => rw [hl] at hsome; cases hsome
      | some v =>
          have hdist := hc.par_dist c v hl
          have hvv := (hc.par_adj c v hl).2
          have hkv : distN m cat v = k := by omega
          rcases ih v hkv hvv with ⟨L, hnd, hlen, hsub, hbound⟩
          refine ⟨c :: L, ?_, by simp [hlen], ?_, ?_⟩
          · refine List.nodup_cons.mpr ⟨fun hcL => ?_, hnd⟩
            have := hbound c hcL
            omega
          · intro p hp
            rcases List.mem_cons.mp hp with h | h
            · exact h ▸ hcv
            · exact hsub p h
          · intro p hp
            rcases List.mem_cons.mp hp with h | h
            · rw [h, hk]
            · exact Nat.le_succ_of_le (hbound p h)

theorem dist_lt_vis_length {m : Maze} {cat : Pos} {vis : List Pos}
    {par : List (Pos × Pos)} (hc : Core m cat vis par) {c : Pos}
    (hcv : c ∈ vis) : distN m cat c < vis.length := by
  rcases core_chain hc (distN m cat c) c rfl hcv with ⟨L, hnd, hlen, hsub, _⟩
  have := nodup_subset_length_le hnd hsub
  omega

/-- The BFS queue order: later entries are at the same distance layer or
exactly one below. -/
def QRel (m : Maze) (cat : Pos) (a b : Pos) : Prop :=
  distN m cat a ≤ distN m cat b ∧ distN m cat b ≤ distN m cat a + 1

/-- The invariant of the outer BFS loop. -/
structure LoopInv (m : Maze) (cat player : Pos) (s : BfsState) : Prop where
  core : Core m cat s.vis s.par
  q_sub : ∀ p ∈ s.q, p ∈ s.vis
  q_nodup : s.q.Nodup
  q_pair : s.q.Pairwise (QRel m cat)
  closed : ∀ p ∈ s.vis, p ∉ s.q → ∀ c ∈ nbrs m p, c ∈ s.vis
  pnv : player ∉ s.vis

/-- The invariant holding while the neighbors of the popped cell u are
being expanded. -/
structure MidInv (m : Maze) (cat player u : Pos) (s : BfsState) : Prop where
  core : Core m cat s.vis s.par
  q_sub : ∀ p ∈ s.q, p ∈ s.vis
  q_nodup : s.q.Nodup
  q_pair : s.q.Pairwise (QRel m cat)
  q_bound : ∀ p ∈ s.q, QRel m cat u p
  closed_exc : ∀ p ∈ s.vis, p ∉ s.q → p ≠ u → ∀ c ∈ nbrs m p, c ∈ s.vis
  u_vis : u ∈ s.vis
  u_far : ∀ c, Reachable m cat c → c ∉ s.vis → distN m cat u + 1 ≤ distN m cat c
  pnv : player ∉ s.vis

/-- The heart of BFS optimality: when u heads the queue, every reachable
unvisited cell is strictly farther from the cat than u. -/
theorem unvisited_far {m : Maze} {cat player u : Pos} {rest vis : List Pos}
    {par : List (Pos × Pos)}
    (inv : LoopInv m cat player ⟨u :: rest, vis, par⟩) :
    ∀ (k : ℕ) (c : Pos), distN m cat c = k → Reachable m cat c → c ∉ vis →
      distN m cat u + 1 ≤ distN m cat c := by
  intro k
  induction k using Nat.strong_induction_on with
  | _ k ih =>
      intro c hk hrc hcv
      cases k with
      | zero =>
          exfalso
          have hcc : c = cat := ((distN_eq_zero_iff hrc).mp hk).symm
          exact hcv (by rw [hcc]; exact inv.core.cat_vis)
      | succ j =>
          have hw := reachB_distN hrc
          rw [hk] at hw
          rcases reachB_succ_rev.mp hw with ⟨b, hb, hcb⟩
          have hrb : Reachable m cat b := reachable_of_reachB hb
          have hdb_le : distN m cat b ≤ j := distN_le hb
          have hdc_le : distN m cat c ≤ distN m cat b + 1 := distN_nbr_le hrb hcb
          have hdb : distN m cat b = j := by omega
          by_cases hbv : b ∈ vis
          · by_cases hbq : b ∈ (u :: rest)
            · have hub : distN m cat u ≤ distN m cat b := by
                rcases List.mem_cons.mp hbq with he | he
                · rw [he]
                · exact ((List.pairwise_cons.mp inv.q_pair).1 b he).1
              omega
            · exact absurd (inv.closed b hbv hbq c hcb) hcv
          · have := ih j (by omega) b hdb hrb hbv
            omega

/-- Pushing a fresh valid neighbor c of u preserves the parent-map
invariant, recording the exact-one-layer-down distance of c. -/
theorem core_push {m : Maze} {cat player u c : Pos} {s : BfsState}
    (inv : MidInv m cat player u s) (hpath : isPathAt m c) (hnv : c ∉ s.vis)
    (hcand : c ∈ candidates u) :
    Core m cat (c :: s.vis) ((c, u) :: s.par) := by
  have hcnbr : c ∈ nbrs m u := List.mem_filter.mpr ⟨hcand, decide_eq_true hpath⟩
  have hru : Reachable m cat u := inv.core.reach u inv.u_vis
  have hrc : Reachable m cat c := by
    rcases hru with ⟨n, hn⟩
    exact ⟨n + 1, reachB_snoc hn hcnbr⟩
  have hccat : c ≠ cat := fun he => hnv (he ▸ inv.core.cat_vis)
  have hdc : distN m cat c = distN m cat u + 1 := by
    have h1 := distN_nbr_le hru hcnbr
    have h2 := inv.u_far c hrc hnv
    omega
  refine ⟨List.nodup_cons.mpr ⟨hnv, inv.core.nodup⟩, ?_, ?_, ?_, ?_, ?_, ?_, ?_, ?_⟩
  · intro p hp
    rcases List.mem_cons.mp hp with h | h
    · exact Or.inr (h ▸ hpath)
    · exact inv.core.path p h
  · intro p hp
    rcases List.mem_cons.mp hp with h | h
    · exact h ▸ hrc
    · exact inv.core.reach p h
  · exact List.mem_cons_of_mem c inv.core.cat_vis
  · rw [lookupPar_cons_ne _ _ _ _ (Ne.symm hccat)]
    exact inv.core.par_cat
  · intro p hp hpne
    rcases List.mem_cons.mp hp with h | h
    · rw [h, lookupPar_cons_self]
      rfl
    · have hpc : p ≠ c := fun he => hnv (he ▸ h)
      rw [lookupPar_cons_ne _ _ _ _ hpc]
      exact inv.core.par_keys p h hpne
  · intro p v hl
    by_cases hpc : p = c
    · subst hpc
      exact ⟨List.mem_cons_self p _, hccat⟩
    · rw [lookupPar_cons_ne _ _ _ _ hpc] at hl
      have := inv.core.par_dom p v hl
      exact ⟨List.mem_cons_of_mem c this.1, this.2⟩
  · intro p v hl
    by_cases hpc : p = c
    · subst hpc
      rw [lookupPar_cons_self] at hl
      cases hl
      exact ⟨hcnbr, List.mem_cons_of_mem _ inv.u_vis⟩
    · rw [lookupPar_cons_ne _ _ _ _ hpc] at hl
      have := inv.core.par_adj p v hl
      exact ⟨this.1, List.mem_cons_of_mem _ this.2⟩
  · intro p v hl
    by_cases hpc : p = c
    · subst hpc
      rw [lookupPar_cons_self] at hl
      cases hl
      exact hdc
    · rw [lookupPar_cons_ne _ _ _ _ hpc] at hl
      exact inv.core.par_dist p v hl

/-- Pushing a fresh valid non-player neighbor of u preserves the whole
mid-expansion invariant. -/
theorem midInv_push {m : Maze} {cat player u c : Pos} {s : BfsState}
    (inv : MidInv m cat player u s) (hpath : isPathAt m c) (hnv : c ∉ s.vis)
    (hcand : c ∈ candidates u) (hcp : c ≠ player) :
    MidInv m cat player u ⟨s.q ++ [c], c :: s.vis, (c, u) :: s.par⟩ := by
  have hcnbr : c ∈ nbrs m u := List.mem_filter.mpr ⟨hcand, decide_eq_true hpath⟩
  have hru : Reachable m cat u := inv.core.reach u inv.u_vis
  have hrc : Reachable m cat c := by
    rcases hru with ⟨n, hn⟩
    exact ⟨n + 1, reachB_snoc hn hcnbr⟩
  have hdc : distN m cat c = distN m cat u + 1 := by
    have h1 := distN_nbr_le hru hcnbr
    have h2 := inv.u_far c hrc hnv
    omega
  have hcq : c ∉ s.q := fun hq => hnv (inv.q_sub c hq)
  refine ⟨core_push inv hpath hnv hcand, ?_, ?_, ?_, ?_, ?_, ?_, ?_, ?_⟩
  · intro p hp
    rcases List.mem_append.mp hp with h | h
    · exact List.mem_cons_of_mem c (inv.q_sub p h)
    · rw [List.mem_singleton.mp h]
      exact List.mem_cons_self c _
  · refine List.Nodup.append inv.q_nodup (List.nodup_singleton c) ?_
    intro a ha hb
    rw [List.mem_singleton.mp hb] at ha
    exact hcq ha
  · rw [List.pairwise_append]
    refine ⟨inv.q_pair, List.pairwise_singleton _ c, ?_⟩
    intro a ha b hb
    rw [List.mem_singleton.mp hb]
    have h1 := (inv.q_bound a ha).1
    have h2 := (inv.q_bound a ha).2
    exact ⟨by omega, by omega⟩
  · intro p hp
    rcases List.mem_append.mp hp with h | h
    · exact inv.q_bound p h
    · rw [List.mem_singleton.mp h]
      exact ⟨by omega, by omega⟩
  · intro p hp hpq hpu
    rcases List.mem_cons.mp hp with h | h
    · exfalso
      apply hpq
      rw [h]
      exact List.mem_append.mpr (Or.inr (List.mem_singleton_self c))
    · intro c' hc'
      have hpq2 : p ∉ s.q := fun hq => hpq (List.mem_append.mpr (Or.inl hq))
      exact List.mem_cons_of_mem c (inv.closed_exc p h hpq2 hpu c' hc')
  · exact List.mem_cons_of_mem c inv.u_vis
  · intro c' hr' hc'
    have : c' ∉ s.vis := fun hm => hc' (List.mem_cons_of_mem c hm)
    exact inv.u_far c' hr' this
  · intro hp
    rcases List.mem_cons.mp hp with h | h
    · exact hcp h.symm
    · exact inv.pnv h

/-- Full specification of the inner expansion loop: when it does not find
the player it preserves the mid-invariant, absorbs every valid candidate it
scanned into the visited list, only grows the visited list, and pushes
exactly as many cells as it visits; when it finds the player, the player is
visited and the parent map still satisfies the Core invariant. -/
theorem expand_spec (m : Maze) (cat player u : Pos) :
    ∀ (cs : List Pos) (s : BfsState), MidInv m cat player u s →
      (∀ c ∈ cs, c ∈ candidates u) →
      (((expand m player u s cs).2 = none →
          MidInv m cat player u (expand m player u s cs).1 ∧
          (∀ c ∈ cs, isPathAt m c → c ∈ (expand m player u s cs).1.vis) ∧
          (∀ p ∈ s.vis, p ∈ (expand m player u s cs).1.vis) ∧
          (expand m player u s cs).1.q.length + s.vis.length =
            (expand m player u s cs).1.vis.length + s.q.length) ∧
       (∀ t, (expand m player u s cs).2 = some t →
          t = player ∧ player ∈ (expand m player u s cs).1.vis ∧
          Core m cat (expand m player u s cs).1.vis
            (expand m player u s cs).1.par)) := by
  intro cs
  induction cs with
  | nil =>
      intro s inv hcs
      have heq : expand m player u s ([] : List Pos) = (s, none) := rfl
      rw [heq]
      constructor
      · intro _
        refine ⟨inv, ?_, fun p hp => hp, Nat.add_comm s.q.length s.vis.length⟩
        intro c hc
        exact absurd hc (List.not_mem_nil c)
      · intro t ht
        cases ht
  | cons c cs ih =>
      intro s inv hcs
      have hccand : c ∈ candidates u := hcs c (List.mem_cons_self c cs)
      by_cases hc : isPathAt m c ∧ c ∉ s.vis
      · by_cases hcp : c = player
        · have heq : expand m player u s (c :: cs) =
              (⟨s.q ++ [c], c :: s.vis, (c, u) :: s.par⟩, some c) := by
            rw [expand, if_pos hc, if_pos hcp]
          rw [heq]
          constructor
          · intro h
            cases h
          · intro t ht
            cases ht
            refine ⟨hcp, ?_, core_push inv hc.1 hc.2 hccand⟩
            rw [← hcp]
            exact List.mem_cons_self c _
        · have heq : expand m player u s (c :: cs) =
              expand m player u ⟨s.q ++ [c], c :: s.vis, (c, u) :: s.par⟩ cs := by
            rw [expand, if_pos hc, if_neg hcp]
          rw [heq]
          have hmid := midInv_push inv hc.1 hc.2 hccand hcp
          have hrec := ih _ hmid (fun e he => hcs e (List.mem_cons_of_mem c he))
          constructor
          · intro hnone
            obtain ⟨hinv, hcsv, hmono, hcount⟩ := hrec.1 hnone
            refine ⟨hinv, ?_, ?_, ?_⟩
            · intro e he hpe
              rcases List.mem_cons.mp he with h | h
              · exact h ▸ hmono c (List.mem_cons_self c _)
              · exact hcsv e h hpe
            · intro p hp
              exact hmono p (List.mem_cons_of_mem c hp)
            · have h1 : (c :: s.vis).length = s.vis.length + 1 := rfl
              have h2 : (s.q ++ [c]).length = s.q.length + 1 := by
                rw [List.length_append, List.length_singleton]
              dsimp only at hcount
              omega
          · exact hrec.2
      · have heq : expand m player u s (c :: cs) = expand m player u s cs := by
          rw [expand, if_neg hc]
        rw [heq]
        have hrec := ih s inv (fun e he => hcs e (List.mem_cons_of_mem c he))
        constructor
        · intro hnone
          obtain ⟨hinv, hcsv, hmono, hcount⟩ := hrec.1 hnone
          refine ⟨hinv, ?_, hmono, hcount⟩
          intro e he hpe
          rcases List.mem_cons.mp he with h | h
          · subst h
            have hev : e ∈ s.vis := by
              by_contra hnv
              exact hc ⟨hpe, hnv⟩
            exact hmono e hev
          · exact hcsv e h hpe
        · exact hrec.2

/-- Specification of the outer BFS loop: with the invariant and enough
fuel, success returns a Core parent map with the player visited, and
failure proves the player unreachable from the cat. -/
theorem bfsLoop_spec (m : Maze) (cat player : Pos) (hcat : isPathAt m cat) :
    ∀ (fuel : ℕ) (s : BfsState), LoopInv m cat player s →
      s.q.length + 529 < fuel + s.vis.length →
      ((∀ par, bfsLoop m player fuel s = some par →
          ∃ vis2, Core m cat vis2 par ∧ player ∈ vis2) ∧
       (bfsLoop m player fuel s = none → ¬ Reachable m cat player)) := by
  intro fuel
  induction fuel with
  | zero =>
      intro s inv hmu
      exfalso
      have hv := vis_length_le hcat inv.core.nodup inv.core.path
      omega
  | succ fuel ih =>
      intro s inv hmu
      cases hq : s.q with
      | nil =>
          have heq : bfsLoop m player (fuel + 1) s = none := by
            rw [bfsLoop, hq]
          constructor
          · intro par hpar
            rw [heq] at hpar
            cases hpar
          · intro _ hreach
            have hall : ∀ (k : ℕ) (c : Pos), distN m cat c ≤ k →
                Reachable m cat c → c ∈ s.vis := by
              intro k
              induction k with
              | zero =>
                  intro c hk hrc
                  have h0 : distN m cat c = 0 := Nat.le_zero.mp hk
                  have hcc : cat = c := (distN_eq_zero_iff hrc).mp h0
                  exact hcc ▸ inv.core.cat_vis
              | succ k ihk =>
                  intro c hk hrc
                  by_cases h0 : distN m cat c ≤ k
                  · exact ihk c h0 hrc
                  · have hdc : distN m cat c = k + 1 := by omega
                    have hw := reachB_distN hrc
                    rw [hdc] at hw
                    rcases reachB_succ_rev.mp hw with ⟨b, hb, hcb⟩
                    have hrb := reachable_of_reachB hb
                    have hbv : b ∈ s.vis := ihk b (distN_le hb) hrb
                    have hbq : b ∉ s.q := by
                      rw [hq]
                      exact List.not_mem_nil b
                    exact inv.closed b hbv hbq c hcb
            exact inv.pnv (hall (distN m cat player) player le_rfl hreach)
      | cons u rest =>
          have hseq : s = ⟨u :: rest, s.vis, s.par⟩ := by rw [← hq]
          have hqu : u ∈ s.q := by
            rw [hq]
            exact List.mem_cons_self u rest
          have hup : u ≠ player := fun he => inv.pnv (he ▸ inv.q_sub u hqu)
          have hsub := inv.q_sub
          rw [hq] at hsub
          have hnd := inv.q_nodup
          rw [hq] at hnd
          have hp2 := inv.q_pair
          rw [hq] at hp2
          have inv2 : LoopInv m cat player ⟨u :: rest, s.vis, s.par⟩ := hseq ▸ inv
          have hmid : MidInv m cat player u ⟨rest, s.vis, s.par⟩ := by
            refine ⟨inv.core, ?_, ?_, ?_, ?_, ?_, ?_, ?_, inv.pnv⟩
            · intro p hp
              exact hsub p (List.mem_cons_of_mem u hp)
            · exact (List.nodup_cons.mp hnd).2
            · exact (List.pairwise_cons.mp hp2).2
            · exact (List.pairwise_cons.mp hp2).1
            · intro p hp hpr hpu c hc
              have hpq : p ∉ s.q := by
                rw [hq]
                intro hmem
                rcases List.mem_cons.mp hmem with h | h
                · exact hpu h
                · exact hpr h
              exact inv.closed p hp hpq c hc
            · exact hsub u (List.mem_cons_self u rest)
            · exact fun c hr hcv => unvisited_far inv2 (distN m cat c) c rfl hr hcv
          have hexp := expand_spec m cat player u (candidates u)
            ⟨rest, s.vis, s.par⟩ hmid (fun c h => h)
          cases hres : (expand m player u ⟨rest, s.vis, s.par⟩ (candidates u)).2 with
          | some t =>
              have heq : bfsLoop m player (fuel + 1) s =
                  some (expand m player u ⟨rest, s.vis, s.par⟩ (candidates u)).1.par := by
                rw [bfsLoop, hq]
                dsimp only
                rw [if_neg hup, hres]
              obtain ⟨ht, hpv, hcore⟩ := hexp.2 t hres
              constructor
              · intro par hpar
                rw [heq] at hpar
                cases hpar
                exact ⟨_, hcore, hpv⟩
              · intro hnone
                rw [heq] at hnone
                cases hnone
          | none =>
              obtain ⟨hinv, hcsv, hmono, hcount⟩ := hexp.1 hres
              have heq : bfsLoop m player (fuel + 1) s =
                  bfsLoop m player fuel
                    (expand m player u ⟨rest, s.vis, s.par⟩ (candidates u)).1 := by
                rw [bfsLoop, hq]
                dsimp only
                rw [if_neg hup, hres]
              have hloop : LoopInv m cat player
                  (expand m player u ⟨rest, s.vis, s.par⟩ (candidates u)).1 := by
                refine ⟨hinv.core, hinv.q_sub, hinv.q_nodup, hinv.q_pair, ?_, hinv.pnv⟩
                intro p hp hpq c hc
                by_cases hpu : p = u
                · subst hpu
                  exact hcsv c (List.mem_of_mem_filter hc) (isPathAt_of_mem_nbrs hc)
                · exact hinv.closed_exc p hp hpq hpu c hc
              have hq_len : s.q.length = rest.length + 1 := by
                rw [hq]
                rfl
              have hmu2 : (expand m player u ⟨rest, s.vis, s.par⟩
                    (candidates u)).1.q.length + 529 <
                  fuel + (expand m player u ⟨rest, s.vis, s.par⟩
                    (candidates u)).1.vis.length := by
                dsimp only at hcount
                omega
              have hrec := ih _ hloop hmu2
              rw [heq]
              exact hrec

/-- The loop invariant holds at the BFS initial state of moveCat. -/
theorem initial_loopInv (m : Maze) (cat player : Pos) (hne : cat ≠ player) :
    LoopInv m cat player ⟨[cat], [cat], []⟩ := by
  refine ⟨⟨List.nodup_singleton cat, ?_, ?_, List.mem_singleton_self cat, rfl,
      ?_, ?_, ?_, ?_⟩, fun p hp => hp, List.nodup_singleton cat,
    List.pairwise_singleton _ cat, ?_, ?_⟩
  · intro p hp
    exact Or.inl (List.mem_singleton.mp hp)
  · intro p hp
    rw [List.mem_singleton.mp hp]
    exact reachable_self m cat
  · intro p hp hpne
    exact absurd (List.mem_singleton.mp hp) hpne
  · intro p v hl
    simp [lookupPar] at hl
  · intro p v hl
    simp [lookupPar] at hl
  · intro p v hl
    simp [lookupPar] at hl
  · intro p hp hpq
    exact absurd hp hpq
  · intro hp
    exact hne (List.mem_singleton.mp hp).symm

/-- One moveCat position step: when the player is reachable and distinct
from the cat, the cat advances to a neighbor exactly one layer closer, and
the player stays reachable from there. -/
theorem moveCatPos_step (m : Maze) (cat player : Pos) (hcat : isPathAt m cat)
    (hne : cat ≠ player) (hreach : Reachable m cat player) :
    moveCatPos m cat player ∈ nbrs m cat ∧
    Reachable m (moveCatPos m cat player) player ∧
    distN m cat player = distN m (moveCatPos m cat player) player + 1 := by
  have hinv := initial_loopInv m cat player hne
  have hspec := bfsLoop_spec m cat player hcat bfsFuel ⟨[cat], [cat], []⟩ hinv
    (by norm_num [bfsFuel])
  unfold moveCatPos
  cases hb : bfsLoop m player bfsFuel ⟨[cat], [cat], []⟩ with
  | none => exact absurd hreach (hspec.2 hb)
  | some par =>
      dsimp only
      obtain ⟨vis2, hcore, hpv⟩ := hspec.1 par hb
      have hd1 : 1 ≤ distN m cat player := one_le_distN hreach hne
      have hdlt : distN m cat player < vis2.length := dist_lt_vis_length hcore hpv
      have hvlen : vis2.length ≤ 529 := vis_length_le hcat hcore.nodup hcore.path
      have hfuel : distN m cat player ≤ bfsFuel := by
        rw [bfsFuel]
        omega
      obtain ⟨nxt, hbt, hlk, hwalk⟩ := backtrack_correct hcore bfsFuel
        (distN m cat player) player rfl hfuel hpv (Ne.symm hne)
      rw [hbt]
      dsimp only
      have hadj := hcore.par_adj nxt cat hlk
      refine ⟨hadj.1, reachable_of_reachB hwalk, ?_⟩
      have hle : distN m nxt player ≤ distN m cat player - 1 := distN_le hwalk
      have hge : distN m cat player ≤ distN m nxt player + 1 := by
        have hw2 := reachB_distN (reachable_of_reachB hwalk)
        exact distN_le (reachB_succ_iff.mpr ⟨nxt, hadj.1, hw2⟩)
      omega

/-- The cat coordinates moveCat writes are exactly moveCatPos of the
current maze and positions. -/
theorem moveCat_pos_eq (s : GameState) :
    ((moveCat s).catX, (moveCat s).catY) =
      moveCatPos s.maze (s.catX, s.catY) (s.playerX, s.playerY) := by
  unfold moveCat moveCatPos
  cases hb : bfsLoop s.maze (s.playerX, s.playerY) bfsFuel
      ⟨[(s.catX, s.catY)], [(s.catX, s.catY)], []⟩ with
  | none => rfl
  | some par =>
      dsimp only
      cases hbt : backtrack par (s.catX, s.catY) bfsFuel (s.playerX, s.playerY) with
      | none =>
          dsimp only
          split <;> rfl
      | some nxt =>
          dsimp only
          split <;> rfl

/-- Claim C1: for every maze and every player cell reachable (under the
tunnel-wrap adjacency) from the cat cell, with the cat on a path tile and
away from the player, one moveCat step puts the cat on a tile adjacent to
its previous position lying on a shortest path: the cat-to-player graph
distance drops by exactly one; holding the player fixed, k repeated steps
leave distance d - k, and after exactly d steps the cat reaches the player.
The full moveCat writes exactly this stepped position into the state. -/
theorem C1_bfs_pursuit (m : Maze) (cat player : Pos) (hcat : isPathAt m cat)
    (hne : cat ≠ player) (hreach : Reachable m cat player) :
    moveCatPos m cat player ∈ nbrs m cat ∧
    distN m cat player = distN m (moveCatPos m cat player) player + 1 ∧
    (∀ k, k ≤ distN m cat player →
      distN m ((fun c => moveCatPos m c player)^[k] cat) player =
        distN m cat player - k) ∧
    (fun c => moveCatPos m c player)^[distN m cat player] cat = player ∧
    (∀ s : GameState, s.maze = m → (s.catX, s.catY) = cat →
      (s.playerX, s.playerY) = player →
      ((moveCat s).catX, (moveCat s).catY) = moveCatPos m cat player) := by
  have hiter : ∀ (k : ℕ) (c : Pos), isPathAt m c → Reachable m c player →
      k ≤ distN m c player →
      distN m ((fun x => moveCatPos m x player)^[k] c) player =
        distN m c player - k ∧
      Reachable m ((fun x => moveCatPos m x player)^[k] c) player ∧
      isPathAt m ((fun x => moveCatPos m x player)^[k] c) := by
    intro k
    induction k with
    | zero =>
        intro c hp hr _
        rw [Function.iterate_zero_apply]
        exact ⟨rfl, hr, hp⟩
    | succ k ih =>
        intro c hp hr hk
        have hcne : c ≠ player := by
          intro he
          rw [he, distN_self] at hk
          cases hk
        have hstep := moveCatPos_step m c player hp hcne hr
        have hpath2 : isPathAt m (moveCatPos m c player) :=
          isPathAt_of_mem_nbrs hstep.1
        have hk2 : k ≤ distN m (moveCatPos m c player) player := by omega
        have hrec := ih (moveCatPos m c player) hpath2 hstep.2.1 hk2
        rw [Function.iterate_succ_apply]
        refine ⟨?_, hrec.2.1, hrec.2.2⟩
        rw [hrec.1]
        omega
  have hstep := moveCatPos_step m cat player hcat hne hreach
  have hd := hiter (distN m cat player) cat hcat hreach le_rfl
  refine ⟨hstep.1, hstep.2.2, fun k hk => (hiter k cat hcat hreach hk).1, ?_, ?_⟩
  · have h0 : distN m ((fun x => moveCatPos m x player)^[distN m cat player] cat)
        player = 0 := by
      rw [hd.1]
      omega
    exact (distN_eq_zero_iff hd.2.1).mp h0
  · intro s hm hc hp
    have := moveCat_pos_eq s
    rw [hm, hc, hp] at this
    exact this

/-- Witness for C1 on layout1: cat at its start cell, player two cells up
the same corridor. -/
theorem C1_witness :
    isPathAt (mazeOfLayout layout1) (11, 11) ∧
    ((11, 11) : Pos) ≠ (11, 9) ∧
    Reachable (mazeOfLayout layout1) (11, 11) (11, 9) ∧
    moveCatPos (mazeOfLayout layout1) (11, 11) (11, 9) ∈
      nbrs (mazeOfLayout layout1) (11, 11) :=
  ⟨by decide, by decide, ⟨2, by decide⟩,
   (C1_bfs_pursuit (mazeOfLayout layout1) (11, 11) (11, 9) (by decide) (by decide)
     ⟨2, by decide⟩).1⟩

end ChasingGame
